import Mathlib

/-! # Online Markdown Editor: rendering pipeline and undo/redo history

A shallow embedding of `src/OnlineMarkdownEditor/script.js`.

* JavaScript strings are modelled as `List Char`.  Every pattern used by the
  script only distinguishes characters of the Basic Multilingual Plane, so a
  scan over characters and a scan over UTF-16 code units cut a text at the same
  places.
* The external libraries (`marked`, KaTeX) and the built-in
  `String.prototype.toLowerCase` are parameters.
* The module-level variables `editor.value`, `preview.innerHTML`, `history`,
  `historyIndex` and `isUpdatingFromHistory` are the fields of `Editor`.
-/

namespace MarkdownEditor

/-! ## Global regular-expression replacement -/

/-- One match found by a global scan: the text before it, the matched text,
the text after it and the captured group. -/
structure Hit (α : Type) where
  before : List Char
  matched : List Char
  after : List Char
  cap : α

/-- One piece of a subject string cut by a global scan: a character outside
every match, or a match. -/
inductive Seg (α : Type) where
  | lit (c : Char) : Seg α
  | hit (h : Hit α) : Seg α

/-- The scan of `String.prototype.replace` with a `/g` pattern.  `matchAt pre s`
is the pattern tried at the position that has `pre` before it and `s` from it
on; it answers the length of the match found there and its captured group.
The scan tries every position from left to right and resumes right after a
match.  `skip` counts the characters of the current match still to be passed.
Every pattern of the script matches at least one character. -/
def scanFrom {α : Type} (matchAt : List Char → List Char → Option (Nat × α)) :
    List Char → Nat → List Char → List (Seg α)
  | _, _, [] => []
  | pre, 0, c :: cs =>
    match matchAt pre (c :: cs) with
    | some (n, cap) =>
      Seg.hit ⟨pre, (c :: cs).take n, (c :: cs).drop n, cap⟩ ::
        scanFrom matchAt (pre ++ [c]) (n - 1) cs
    | none => Seg.lit c :: scanFrom matchAt (pre ++ [c]) 0 cs
  | pre, k + 1, c :: cs => scanFrom matchAt (pre ++ [c]) k cs

/-- The segments of a whole subject string. -/
def scan {α : Type} (matchAt : List Char → List Char → Option (Nat × α))
    (s : List Char) : List (Seg α) :=
  scanFrom matchAt [] 0 s

/-- The text put together from the segments of a scan: characters outside the
matches are kept, every match is replaced by what `f` answers for it. -/
def segText {α : Type} (f : Hit α → List Char) (segs : List (Seg α)) : List Char :=
  (segs.map (fun seg =>
    match seg with
    | Seg.lit c => [c]
    | Seg.hit h => f h)).flatten

/-- The call `s.replace(pattern, f)` with a `/g` pattern. -/
def jsReplace {α : Type} (matchAt : List Char → List Char → Option (Nat × α))
    (f : Hit α → List Char) (s : List Char) : List Char :=
  segText f (scan matchAt s)

/-- A literal piece of a pattern: the rest of `s` after `p`, when `s` starts
with `p`. -/
def expect (p s : List Char) : Option (List Char) :=
  if p.isPrefixOf s then some (s.drop p.length) else none

/-- The lazy group `X*?` followed by the literal `stop` at the end of a
pattern: the length of the shortest match, `stop` included. -/
def lazyUntil (stop : List Char) (ok : Char → Bool) : List Char → Option Nat
  | [] => if stop.isPrefixOf [] then some stop.length else none
  | c :: cs =>
    if stop.isPrefixOf (c :: cs) then some stop.length
    else if ok c then (lazyUntil stop ok cs).map (· + 1) else none

/-- The call `s.substring(a, b)`: both ends are clamped to the string and
swapped when `a > b`. -/
def jsSubstring (s : List Char) (a b : Nat) : List Char :=
  (s.take (max a b)).drop (min a b)

/-- The decimal digits of an index, as in a template literal. -/
def decimal (n : Nat) : List Char := Nat.toDigits 10 n

/-- The call `parseInt(ds, 10)` on a non-empty run of decimal digits. -/
def parseInt (ds : List Char) : Nat :=
  ds.foldl (fun acc d => 10 * acc + (d.toNat - '0'.toNat)) 0

/-! ## Math-Block Isolator (`updatePreview`, lines 185-211) -/

/-- The class `[^\n\r$]`. -/
def inlineMathChar (c : Char) : Bool :=
  !(c == '\n' || c == '\r' || c == '$')

/-- First alternative of `mathRegex`: `\$\$[\s\S]*?\$\$`. -/
def mathBlockAlt (s : List Char) : Option Nat :=
  match expect ['$', '$'] s with
  | some rest => (lazyUntil ['$', '$'] (fun _ => true) rest).map (· + 2)
  | none => none

/-- Second alternative of `mathRegex`: `\$[^\n\r$]+?\$`.  The class excludes
`$`, so the only candidate is the whole run of class characters. -/
def mathInlineAlt (s : List Char) : Option Nat :=
  match expect ['$'] s with
  | some rest =>
    let n := (rest.takeWhile inlineMathChar).length
    if 1 ≤ n ∧ ['$'].isPrefixOf (rest.drop n) then some (n + 2) else none
  | none => none

/-- The pattern `mathRegex = /(\$\$[\s\S]*?\$\$|\$[^\n\r$]+?\$)/g` tried at one
position: the first alternative that matches wins. -/
def mathRegex (_pre s : List Char) : Option (Nat × Unit) :=
  ((mathBlockAlt s).orElse (fun _ => mathInlineAlt s)).map (fun n => (n, ()))

/-- The placeholder comment of the math block with the given index. -/
def placeholder (index : Nat) : List Char :=
  "<!--MATH_BLOCK_".toList ++ decimal index ++ "-->".toList

/-- The callback of the math replacement: a match that starts with `$$` and
holds no `\n` is stored in single-delimiter form. -/
def processMatch (m : List Char) : List Char :=
  if ['$', '$'].isPrefixOf m && !m.contains '\n' then
    '$' :: jsSubstring m 2 (m.length - 2) ++ ['$']
  else m

/-- The Math-Block Isolator: `placeholderText` and `mathBlocks` of
`updatePreview`. -/
def isolateMath (markdownText : List Char) : List Char × List (List Char) :=
  (scan mathRegex markdownText).foldl
    (fun acc seg =>
      match seg with
      | Seg.lit c => (acc.1 ++ [c], acc.2)
      | Seg.hit h => (acc.1 ++ placeholder acc.2.length, acc.2 ++ [processMatch h.matched]))
    ([], [])

/-- The class `\s`. -/
def isJsSpace (c : Char) : Bool :=
  c == '\t' || c == '\n' || c.toNat == 0x0B || c.toNat == 0x0C || c == '\r' || c == ' ' ||
  c.toNat == 0xA0 || c.toNat == 0x1680 || (0x2000 ≤ c.toNat && c.toNat ≤ 0x200A) ||
  c.toNat == 0x2028 || c.toNat == 0x2029 || c.toNat == 0x202F || c.toNat == 0x205F ||
  c.toNat == 0x3000 || c.toNat == 0xFEFF

/-- The piece `<!--MATH_BLOCK_(\d+)-->`: the digits captured and the rest. -/
def placeholderCore (s : List Char) : Option (List Char × List Char) :=
  match expect "<!--MATH_BLOCK_".toList s with
  | some s1 =>
    let ds := s1.takeWhile Char.isDigit
    if ds = [] then none
    else
      match expect "-->".toList (s1.drop ds.length) with
      | some s2 => some (ds, s2)
      | none => none
  | none => none

/-- First alternative of the restore pattern:
`<p>\s*<!--MATH_BLOCK_(\d+)-->\s*<\/p>`. -/
def restoreWrappedAlt (s : List Char) : Option (Nat × List Char) :=
  match expect "<p>".toList s with
  | some s1 =>
    match placeholderCore (s1.dropWhile isJsSpace) with
    | some (ds, s2) =>
      match expect "</p>".toList (s2.dropWhile isJsSpace) with
      | some s3 => some (s.length - s3.length, ds)
      | none => none
    | none => none
  | none => none

/-- Second alternative of the restore pattern: `<!--MATH_BLOCK_(\d+)-->`. -/
def restoreBareAlt (s : List Char) : Option (Nat × List Char) :=
  match placeholderCore s with
  | some (ds, s1) => some (s.length - s1.length, ds)
  | none => none

/-- The restore pattern tried at one position; the captured group is the group
of the alternative that matched (`indexInP || indexInline`). -/
def restoreRegex (_pre s : List Char) : Option (Nat × List Char) :=
  (restoreWrappedAlt s).orElse (fun _ => restoreBareAlt s)

/-- The lookup `mathBlocks[index]` turned into text: a missing element is
`undefined`. -/
def blockAt (mathBlocks : List (List Char)) (index : Nat) : List Char :=
  (mathBlocks.get? index).getD "undefined".toList

/-- Restoring the placeholders after the markdown conversion. -/
def restoreMath (htmlContent : List Char) (mathBlocks : List (List Char)) : List Char :=
  jsReplace restoreRegex (fun h => blockAt mathBlocks (parseInt h.cap)) htmlContent

/-! ## Heading rule (`renderer.heading`, lines 104-109) -/

/-- The class `.`: every character but a line terminator. -/
def isDot (c : Char) : Bool :=
  !(c == '\n' || c == '\r' || c.toNat == 0x2028 || c.toNat == 0x2029)

/-- The pattern `/==(.*?)==/g` tried at one position; the captured group is
the text between the two marks. -/
def highlightRegex (_pre s : List Char) : Option (Nat × List Char) :=
  match expect ['=', '='] s with
  | some rest =>
    match lazyUntil ['=', '='] isDot rest with
    | some n => some (n + 2, rest.take (n - 2))
    | none => none
  | none => none

/-- The pattern `/<[^>]*>/g` tried at one position.  The class excludes `>`,
so the only candidate is the whole run of class characters. -/
def tagRegex (_pre s : List Char) : Option (Nat × Unit) :=
  match expect ['<'] s with
  | some rest =>
    let n := (rest.takeWhile (fun c => !(c == '>'))).length
    if ['>'].isPrefixOf (rest.drop n) then some (n + 2, ()) else none
  | none => none

/-- The class `[\w一-龥]`: word characters and CJK ideographs. -/
def isWordOrCjk (c : Char) : Bool :=
  c.isAlphanum || c == '_' || (0x4e00 ≤ c.toNat && c.toNat ≤ 0x9fa5)

/-- The pattern `/[^\w一-龥]+/g` tried at one position: the longest
run of characters outside the class. -/
def nonWordRegex (_pre s : List Char) : Option (Nat × Unit) :=
  let n := (s.takeWhile (fun c => !isWordOrCjk c)).length
  if 1 ≤ n then some (n, ()) else none

/-- The pattern `/^-+|-+$/g` tried at one position: a run of hyphens at the
start of the string, or a run of hyphens that reaches its end. -/
def edgeHyphenRegex (pre s : List Char) : Option (Nat × Unit) :=
  let n := (s.takeWhile (fun c => c == '-')).length
  if pre = [] ∧ 1 ≤ n then some (n, ())
  else if 1 ≤ n ∧ s.drop n = [] then some (n, ())
  else none

/-- The expression that computes `cleanText` from `rawtext`. -/
def cleanText (rawtext : List Char) : List Char :=
  jsReplace tagRegex (fun _ => []) (jsReplace highlightRegex (fun h => h.cap) rawtext)

/-- The expression that computes the anchor `id` from `cleanText`.
`toLowerCase` is the built-in of that name. -/
def anchorId (toLowerCase : List Char → List Char) (clean : List Char) : List Char :=
  jsReplace edgeHyphenRegex (fun _ => [])
    (jsReplace nonWordRegex (fun _ => ['-']) (toLowerCase clean))

/-- An element of `tocData`. -/
structure TocEntry where
  level : Nat
  text : List Char
  id : List Char
deriving DecidableEq, Repr

/-- The heading rule `renderer.heading(text, level, rawtext)`: the entry pushed
onto `tocData` and the heading tag returned. -/
def heading (toLowerCase : List Char → List Char) (text : List Char) (level : Nat)
    (rawtext : List Char) : TocEntry × List Char :=
  let clean := cleanText rawtext
  let id := anchorId toLowerCase clean
  (⟨level, clean, id⟩,
    "<h".toList ++ decimal level ++ " id=\"".toList ++ id ++ "\">".toList ++ text ++
      "</h".toList ++ decimal level ++ ">".toList)

/-! ## Table of contents (`generateTOC`, lines 152-167) -/

/-- The call `s.repeat(n)`. -/
def jsRepeat (s : List Char) (n : Nat) : List Char :=
  (List.replicate n s).flatten

/-- The list item emitted for one entry. -/
def tocItem (item : TocEntry) : List Char :=
  "<li><a href=\"#".toList ++ item.id ++ "\" onclick=\"scrollToSection('".toList ++ item.id ++
    "'); return false;\">".toList ++ item.text ++ "</a></li>".toList

/-- The opening of the fragment, up to the first `<ul>` excluded. -/
def tocHead : List Char := "<div class=\"toc\"><div class=\"toc-title\">📑 目录</div>".toList

/-- The body of the `forEach` callback of `generateTOC`, on the pair
`(tocHtml, currentLevel)`. -/
def tocStep (acc : List Char × Nat) (item : TocEntry) : List Char × Nat :=
  let tocHtml := acc.1
  let currentLevel := acc.2
  let tocHtml :=
    if item.level > currentLevel then tocHtml ++ jsRepeat "<ul>".toList (item.level - currentLevel)
    else if item.level < currentLevel then
      tocHtml ++ jsRepeat "</ul>".toList (currentLevel - item.level)
    else tocHtml
  (tocHtml ++ tocItem item, item.level)

/-- The function `generateTOC`, on the entries collected in `tocData`. -/
def generateTOC (tocData : List TocEntry) : List Char :=
  if tocData.length = 0 then []
  else
    let acc := tocData.foldl tocStep (tocHead ++ "<ul>".toList, 1)
    acc.1 ++ jsRepeat "</ul>".toList acc.2 ++ "</div>".toList

/-- The list structure of a fragment: a `<ul>` tag, a `</ul>` tag or the list
item of an entry. -/
inductive TocTag where
  | ulOpen : TocTag
  | ulClose : TocTag
  | li (item : TocEntry) : TocTag
deriving DecidableEq, Repr

/-- The text of one tag. -/
def TocTag.render : TocTag → List Char
  | TocTag.ulOpen => "<ul>".toList
  | TocTag.ulClose => "</ul>".toList
  | TocTag.li item => tocItem item

/-- The tags `generateTOC` emits during its loop for the entries, starting at
level `currentLevel`, followed by the closing tags after the loop. -/
def tocTags : Nat → List TocEntry → List TocTag
  | currentLevel, [] => List.replicate currentLevel TocTag.ulClose
  | currentLevel, item :: rest =>
    (if item.level > currentLevel then List.replicate (item.level - currentLevel) TocTag.ulOpen
     else if item.level < currentLevel then
       List.replicate (currentLevel - item.level) TocTag.ulClose
     else []) ++ TocTag.li item :: tocTags item.level rest

/-- Reading a tag sequence from list depth `depth`: the depth at which every
list item sits, in order, and the depth left at the end; `none` when a `</ul>`
closes a list that was not opened. -/
def liDepths : Nat → List TocTag → Option (List (Nat × TocEntry) × Nat)
  | depth, [] => some ([], depth)
  | depth, TocTag.ulOpen :: rest => liDepths (depth + 1) rest
  | 0, TocTag.ulClose :: _ => none
  | depth + 1, TocTag.ulClose :: rest => liDepths depth rest
  | depth, TocTag.li item :: rest =>
    (liDepths depth rest).map (fun r => ((depth, item) :: r.1, r.2))

/-! ## Rendering pass (`updatePreview`, lines 182-244) -/

/-- The pattern `/<p>\[TOC\]<\/p>|\[TOC\]/g` tried at one position. -/
def tocRegex (_pre s : List Char) : Option (Nat × Unit) :=
  if "<p>[TOC]</p>".toList.isPrefixOf s then some (12, ())
  else if "[TOC]".toList.isPrefixOf s then some (5, ())
  else none

/-- The replacement string of `replace` read as a template, for a pattern
without groups: `$$` is a dollar sign, `$&` the match, `$` followed by a
backquote the text before the match and `$` followed by a quote the text after
it; every other character stands for itself. -/
def substitution (h : Hit Unit) : List Char → List Char
  | [] => []
  | [c] => [c]
  | c :: d :: rest =>
    if c = '$' ∧ d = '$' then '$' :: substitution h rest
    else if c = '$' ∧ d = '&' then h.matched ++ substitution h rest
    else if c = '$' ∧ d = Char.ofNat 0x60 then h.before ++ substitution h rest
    else if c = '$' ∧ d = Char.ofNat 0x27 then h.after ++ substitution h rest
    else c :: substitution h (d :: rest)

/-- The external collaborators of a rendering pass. -/
structure Libs where
  /-- The call `marked.parse(placeholderText)` with the configured renderer:
  the HTML and the entries its heading rule pushed onto `tocData`. -/
  marked : List Char → List Char × List TocEntry
  /-- The effect of `renderMathInElement` on the content of the preview. -/
  renderMathInElement : List Char → List Char

/-- The content a rendering pass leaves in the preview pane for a document
text. -/
def renderPreview (libs : Libs) (markdownText : List Char) : List Char :=
  let isolated := isolateMath markdownText
  let parsed := libs.marked isolated.1
  let htmlContent := restoreMath parsed.1 isolated.2
  let htmlContent :=
    if "[TOC]".toList <:+: htmlContent then
      jsReplace tocRegex (fun h => substitution h (generateTOC parsed.2)) htmlContent
    else htmlContent
  libs.renderMathInElement htmlContent

/-! ## History (`saveToHistory`, `undo`, `redo`, lines 253-286) -/

/-- The module-level state of the script. -/
structure Editor where
  /-- The document text `editor.value`. -/
  editorValue : List Char
  /-- The content of the preview pane. -/
  previewHtml : List Char
  history : List (List Char)
  historyIndex : Int
  isUpdatingFromHistory : Bool
deriving DecidableEq, Repr

/-- The call `a.slice(0, stop)`: a negative `stop` counts from the end. -/
def jsSliceTo (a : List (List Char)) (stop : Int) : List (List Char) :=
  if stop < 0 then a.take ((a.length : Int) + stop).toNat else a.take stop.toNat

/-- The value a text area takes from `a[i]`: the element, or the text
`undefined` when there is none. -/
def jsElementText (a : List (List Char)) (i : Int) : List Char :=
  if i < 0 then "undefined".toList else (a.get? i.toNat).getD "undefined".toList

/-- The function `saveToHistory`. -/
def saveToHistory (st : Editor) : Editor :=
  let currentContent := st.editorValue
  let st1 :=
    if st.historyIndex < (st.history.length : Int) - 1 then
      { st with history := jsSliceTo st.history (st.historyIndex + 1) }
    else st
  if st1.history.length = 0 ∨ st1.history.getLast? ≠ some currentContent then
    let st2 := { st1 with history := st1.history ++ [currentContent] }
    let st3 := { st2 with historyIndex := (st2.history.length : Int) - 1 }
    if st3.history.length > 100 then
      { st3 with history := st3.history.tail, historyIndex := st3.historyIndex - 1 }
    else st3
  else st1

/-- The function `updatePreview`. -/
def updatePreview (libs : Libs) (st : Editor) : Editor :=
  if st.isUpdatingFromHistory then st
  else
    let st1 := { st with previewHtml := renderPreview libs st.editorValue }
    if !st1.isUpdatingFromHistory then saveToHistory st1 else st1

/-- The function `undo`. -/
def undo (libs : Libs) (st : Editor) : Editor :=
  if st.historyIndex > 0 then
    let st1 := { st with historyIndex := st.historyIndex - 1 }
    let st2 := { st1 with isUpdatingFromHistory := true }
    let st3 := { st2 with editorValue := jsElementText st2.history st2.historyIndex }
    let st4 := updatePreview libs st3
    { st4 with isUpdatingFromHistory := false }
  else st

/-- The function `redo`. -/
def redo (libs : Libs) (st : Editor) : Editor :=
  if st.historyIndex < (st.history.length : Int) - 1 then
    let st1 := { st with historyIndex := st.historyIndex + 1 }
    let st2 := { st1 with isUpdatingFromHistory := true }
    let st3 := { st2 with editorValue := jsElementText st2.history st2.historyIndex }
    let st4 := updatePreview libs st3
    { st4 with isUpdatingFromHistory := false }
  else st

/-- The `input` event of the text area: the user has changed the document
text to `text`, and the listener `updatePreview` runs.  This is how a snapshot
is recorded. -/
def edit (libs : Libs) (text : List Char) (st : Editor) : Editor :=
  updatePreview libs { st with editorValue := text }

/-- The history reset shared by `newFile` and the `onload` callback of
`handleFileImport`: the text is replaced, rendered, and the history restarts
from it. -/
def resetWith (libs : Libs) (text : List Char) (st : Editor) : Editor :=
  let st1 := updatePreview libs { st with editorValue := text }
  saveToHistory { st1 with history := [], historyIndex := -1 }

/-- The function `newFile`; `confirmed` is the answer to its `confirm`
dialog. -/
def newFile (libs : Libs) (confirmed : Bool) (st : Editor) : Editor :=
  if confirmed then resetWith libs [] st else st

/-- The `onload` callback of `handleFileImport`, with the text read from the
file. -/
def handleFileImport (libs : Libs) (content : List Char) (st : Editor) : Editor :=
  resetWith libs content st

/-- The events that touch the history. -/
inductive Action where
  | edit (text : List Char) : Action
  | undo : Action
  | redo : Action
  | newFile (confirmed : Bool) : Action
  | fileImport (content : List Char) : Action
deriving DecidableEq, Repr

/-- The handler of one event. -/
def step (libs : Libs) (st : Editor) : Action → Editor
  | Action.edit text => edit libs text st
  | Action.undo => undo libs st
  | Action.redo => redo libs st
  | Action.newFile confirmed => newFile libs confirmed st
  | Action.fileImport content => handleFileImport libs content st

/-- The state after a sequence of events. -/
def run (libs : Libs) (st : Editor) (actions : List Action) : Editor :=
  actions.foldl (step libs) st

/-- The state when the script is loaded: empty history, cursor `-1`. -/
def initial : Editor :=
  { editorValue := [], previewHtml := [], history := [], historyIndex := -1,
    isUpdatingFromHistory := false }

/-- Recording the snapshots of a list one after the other. -/
def recordAll (libs : Libs) (st : Editor) (snapshots : List (List Char)) : Editor :=
  snapshots.foldl (fun acc text => edit libs text acc) st

/-- Whether an action is one of Record, Undo and Redo. -/
def Action.isBasic : Action → Bool
  | Action.edit _ => true
  | Action.undo => true
  | Action.redo => true
  | _ => false

/-- The shape of the history in every state the events can reach: the guard
flag is down, at most 100 entries are stored, no two neighbours are equal, and
either nothing is stored and the cursor is `-1`, or the cursor points at the
entry that equals the document text. -/
def Reachable (st : Editor) : Prop :=
  st.isUpdatingFromHistory = false ∧ st.history.length ≤ 100 ∧
  st.history.Chain' (fun a b => a ≠ b) ∧
  ((st.history = [] ∧ st.historyIndex = -1) ∨
    ∃ pre cur post, st.history = pre ++ cur :: post ∧ st.historyIndex = (pre.length : Int) ∧
      st.editorValue = cur)

/-- Stand-ins for the external collaborators in concrete runs: a converter
that answers its input with no heading, and a typesetter that changes
nothing. -/
def plainLibs : Libs :=
  { marked := fun text => (text, []), renderMathInElement := fun html => html }

/-- A list of 101 pairwise distinct snapshots: the texts of 0, 1, ..., 100
letters `x`. -/
def sampleSnapshots : List (List Char) :=
  (List.range 101).map (fun n => List.replicate n 'x')

/-- The texts the pattern `mathRegex` describes: a text of at least four
characters between `$$` and `$$`, or a non-empty run of characters other than
`\n`, `\r` and `$` between `$` and `$`. -/
def IsMathExpr (m : List Char) : Prop :=
  (4 ≤ m.length ∧ ['$', '$'] <+: m ∧ ['$', '$'] <:+ m) ∨
  (3 ≤ m.length ∧ ['$'] <+: m ∧ ['$'] <:+ m ∧ ∀ c ∈ m.tail.dropLast, inlineMathChar c = true)

instance : DecidablePred IsMathExpr := fun m => by
  unfold IsMathExpr
  infer_instance

/-- The characters an anchor id may hold: `a`-`z`, `0`-`9`, `_`, the CJK
ideographs U+4E00..U+9FA5 and `-`. -/
def isIdChar (c : Char) : Bool :=
  c.isLower || c.isDigit || c == '_' || (0x4e00 ≤ c.toNat && c.toNat ≤ 0x9fa5) || c == '-'

/-- A stand-in for `toLowerCase` on texts whose only cased letters are the
letters `A`-`Z`. -/
def asciiLowerCase (s : List Char) : List Char :=
  s.map Char.toLower

/-! ## Reading the emitted table of contents -/

/-- The link `generateTOC` puts between `<li>` and `</li>` for an entry. -/
def tocLink (item : TocEntry) : List Char :=
  "<a href=\"#".toList ++ item.id ++ "\" onclick=\"scrollToSection('".toList ++ item.id ++
    "'); return false;\">".toList ++ item.text ++ "</a>".toList

/-- One call of the heading rule during a rendering pass. -/
structure HeadingCall where
  text : List Char
  level : Nat
  rawtext : List Char
deriving DecidableEq, Repr

/-- The content of `tocData` after a rendering pass: it is emptied at the start
of `updatePreview` and the heading rule pushes one entry for every heading, in
document order. -/
def collectToc (toLowerCase : List Char → List Char) (calls : List HeadingCall) :
    List TocEntry :=
  calls.map (fun h => (heading toLowerCase h.text h.level h.rawtext).1)

/-- The tag `<ul>`. -/
def ulOpenTag : List Char := ['<', 'u', 'l', '>']

/-- The tag `</ul>`. -/
def ulCloseTag : List Char := ['<', '/', 'u', 'l', '>']

/-- The tag `<li>`. -/
def liOpenTag : List Char := ['<', 'l', 'i', '>']

/-- The tag `</li>`. -/
def liCloseTag : List Char := ['<', '/', 'l', 'i', '>']

/-- The part of a text before the first place where `stop` stands. -/
def upTo (stop : List Char) : List Char → List Char
  | [] => []
  | c :: cs => if stop <+: c :: cs then [] else c :: upTo stop cs

/-- Reading the lists off an HTML text, from list depth `depth`: at every place
where `<ul>` stands the depth goes up, where `</ul>` stands it goes down, and
where `<li>` stands the depth and the content of the item, up to the next
`</li>`, are noted.  The answer is the items in order and the depth left at
the end; `none` when a `</ul>` closes a list that was not opened. -/
def readLists : Nat → List Char → Option (List (Nat × List Char) × Nat)
  | depth, [] => some ([], depth)
  | depth, c :: cs =>
    if ulOpenTag <+: c :: cs then readLists (depth + 1) cs
    else if ulCloseTag <+: c :: cs then
      match depth with
      | 0 => none
      | d + 1 => readLists d cs
    else if liOpenTag <+: c :: cs then
      (readLists depth cs).map
        (fun r => ((depth, upTo liCloseTag (cs.drop 3)) :: r.1, r.2))
    else readLists depth cs

/-- The calls of the heading rule for the headings `# A`, `## B`, `# C`. -/
def headingsABC : List HeadingCall :=
  [⟨['A'], 1, ['A']⟩, ⟨['B'], 2, ['B']⟩, ⟨['C'], 1, ['C']⟩]

/-- Whether a pattern fails on a text within the characters both have. -/
def refutes : List Char → List Char → Bool
  | p :: ps, b :: bs => p != b || refutes ps bs
  | _, _ => false

/-- Whether a pattern fails at every place of a text, whatever follows the
text. -/
def inertText (p block : List Char) : Bool :=
  block.tails.all (fun b => b.isEmpty || refutes p b)

/-- None of the patterns stands at a place inside `block` when `after`
follows it. -/
def Inert (patterns : List (List Char)) (block after : List Char) : Prop :=
  ∀ p ∈ patterns, ∀ a b, block = a ++ b → b ≠ [] → ¬ p <+: b ++ after

/-- A tag pattern: `<`, then characters other than `<` with a `>` among
them. -/
def IsTagPattern (p : List Char) : Prop :=
  ∃ body, p = '<' :: body ∧ '<' ∉ body ∧ '>' ∈ body

/-- No `<` of the text has a `>` after it: the text holds no tag. -/
def TagFree (t : List Char) : Prop :=
  ∀ a b, t = a ++ '<' :: b → '>' ∉ b

/-- An entry whose text holds no tag and whose id holds no `<`. -/
def EntryClean (e : TocEntry) : Prop :=
  TagFree e.text ∧ ∀ c ∈ e.id, c ≠ '<'

/-! ## Properties of the history -/

theorem get?_at (pre post : List (List Char)) (cur : List Char) :
    (pre ++ cur :: post).get? pre.length = some cur := by
  induction pre with
  | nil => rfl
  | cons a pre ih => simpa using ih

theorem jsElementText_at (pre post : List (List Char)) (cur : List Char) :
    jsElementText (pre ++ cur :: post) (pre.length : Int) = cur := by
  have h : ¬ ((pre.length : Int) < 0) := by omega
  have h2 := get?_at pre post cur
  simp only [jsElementText, h, if_false, Int.toNat_ofNat, h2, Option.getD_some]

theorem jsSliceTo_at (pre post : List (List Char)) (cur : List Char) :
    jsSliceTo (pre ++ cur :: post) ((pre.length : Int) + 1) = pre ++ [cur] := by
  have h : ¬ ((pre.length : Int) + 1 < 0) := by omega
  have h2 : ((pre.length : Int) + 1).toNat = pre.length + 1 := by omega
  simp [jsSliceTo, h, h2, List.take_append_eq_append_take]

/-- Recording on an empty history stores the document text. -/
theorem saveToHistory_empty (st : Editor) (h : st.history = []) (hi : st.historyIndex = -1) :
    saveToHistory st = { st with history := [st.editorValue], historyIndex := 0 } := by
  simp [saveToHistory, h, hi]

/-- Recording when the cursor points at `cur`: the entries after the cursor are
dropped, the text is appended unless it equals `cur`, and the oldest entry
leaves when 101 entries are reached. -/
theorem saveToHistory_at (st : Editor) (pre post : List (List Char)) (cur : List Char)
    (h : st.history = pre ++ cur :: post) (hi : st.historyIndex = (pre.length : Int)) :
    saveToHistory st =
      if cur = st.editorValue then { st with history := pre ++ [cur] }
      else if 100 < pre.length + 2 then
        { st with history := (pre ++ [cur, st.editorValue]).tail,
                  historyIndex := (pre.length : Int) }
      else
        { st with history := pre ++ [cur, st.editorValue],
                  historyIndex := (pre.length : Int) + 1 } := by
  have hcut : (if st.historyIndex < (st.history.length : Int) - 1 then
      { st with history := jsSliceTo st.history (st.historyIndex + 1) } else st) =
      { st with history := pre ++ [cur] } := by
    by_cases hp : post = []
    · subst hp
      have : ¬ ((pre.length : Int) < ((pre ++ [cur]).length : Int) - 1) := by
        simp
      rw [h, hi, if_neg this]
      cases st
      simp_all
    · have : (pre.length : Int) < ((pre ++ cur :: post).length : Int) - 1 := by
        have : 0 < post.length := List.length_pos.mpr hp
        simp
        omega
      rw [h, hi, if_pos this, jsSliceTo_at]
  unfold saveToHistory
  simp only [hcut]
  by_cases hc : cur = st.editorValue
  · simp [hc]
  · have hlen : (pre ++ [cur, st.editorValue]).length = pre.length + 2 := by simp
    have hc2 : ¬ st.editorValue = cur := fun e => hc e.symm
    by_cases hbig : 100 < pre.length + 2
    · simp [hc, hc2, hbig]
      omega
    · simp [hc, hc2, hbig]
      omega

/-- An edit on an empty history. -/
theorem edit_empty (libs : Libs) (text : List Char) (st : Editor)
    (hf : st.isUpdatingFromHistory = false) (h : st.history = []) (hi : st.historyIndex = -1) :
    edit libs text st =
      { editorValue := text, previewHtml := renderPreview libs text, history := [text],
        historyIndex := 0, isUpdatingFromHistory := false } := by
  simp [edit, updatePreview, hf, saveToHistory, h, hi]

/-- An edit when the cursor points at `cur`. -/
theorem edit_at (libs : Libs) (text : List Char) (st : Editor) (pre post : List (List Char))
    (cur : List Char) (hf : st.isUpdatingFromHistory = false)
    (h : st.history = pre ++ cur :: post) (hi : st.historyIndex = (pre.length : Int)) :
    edit libs text st =
      if cur = text then
        { editorValue := text, previewHtml := renderPreview libs text, history := pre ++ [cur],
          historyIndex := (pre.length : Int), isUpdatingFromHistory := false }
      else if 100 < pre.length + 2 then
        { editorValue := text, previewHtml := renderPreview libs text,
          history := (pre ++ [cur, text]).tail, historyIndex := (pre.length : Int),
          isUpdatingFromHistory := false }
      else
        { editorValue := text, previewHtml := renderPreview libs text,
          history := pre ++ [cur, text], historyIndex := (pre.length : Int) + 1,
          isUpdatingFromHistory := false } := by
  obtain ⟨ev, pv, hist, idx, flag⟩ := st
  simp only at hf h hi
  subst hf h hi
  have hs := saveToHistory_at
    { editorValue := text, previewHtml := renderPreview libs text,
      history := pre ++ cur :: post, historyIndex := (pre.length : Int),
      isUpdatingFromHistory := false } pre post cur rfl rfl
  simp only [edit, updatePreview]
  simp only [Bool.false_eq_true, if_false, Bool.not_false, if_true]
  rw [hs]

/-- The function `undo` when the cursor is past the first entry. -/
theorem undo_at (libs : Libs) (st : Editor) (pre post : List (List Char)) (prev cur : List Char)
    (hf : st.isUpdatingFromHistory = false)
    (h : st.history = pre ++ prev :: cur :: post)
    (hi : st.historyIndex = ((pre ++ [prev]).length : Int)) :
    undo libs st = { st with editorValue := prev, historyIndex := (pre.length : Int) } := by
  have hpos : st.historyIndex > 0 := by rw [hi]; simp
  have hidx : st.historyIndex - 1 = (pre.length : Int) := by rw [hi]; simp
  simp only [undo, hpos, if_true, updatePreview, hidx, h, jsElementText_at]
  cases st
  simp_all

/-- The function `undo` when the cursor is at most `0`. -/
theorem undo_first (libs : Libs) (st : Editor) (hi : st.historyIndex ≤ 0) : undo libs st = st := by
  have : ¬ st.historyIndex > 0 := by omega
  simp [undo, this]

/-- The function `redo` when an entry follows the cursor. -/
theorem redo_at (libs : Libs) (st : Editor) (pre post : List (List Char)) (cur next : List Char)
    (hf : st.isUpdatingFromHistory = false)
    (h : st.history = pre ++ cur :: next :: post)
    (hi : st.historyIndex = (pre.length : Int)) :
    redo libs st =
      { st with editorValue := next, historyIndex := ((pre ++ [cur]).length : Int) } := by
  have hlt : st.historyIndex < (st.history.length : Int) - 1 := by rw [hi, h]; simp; omega
  have hidx : st.historyIndex + 1 = ((pre ++ [cur]).length : Int) := by rw [hi]; simp
  have hh : st.history = (pre ++ [cur]) ++ next :: post := by rw [h]; simp
  simp only [redo, hlt, if_true, updatePreview, hidx]
  rw [hh, jsElementText_at]
  cases st
  simp_all

/-- The function `redo` when the cursor is at the last index. -/
theorem redo_last (libs : Libs) (st : Editor)
    (hi : st.historyIndex = (st.history.length : Int) - 1) : redo libs st = st := by
  have : ¬ st.historyIndex < (st.history.length : Int) - 1 := by omega
  simp [redo, this]

theorem saveToHistory_editorValue (st : Editor) :
    (saveToHistory st).editorValue = st.editorValue := by
  unfold saveToHistory
  simp only
  split_ifs <;> rfl

theorem saveToHistory_flag (st : Editor) :
    (saveToHistory st).isUpdatingFromHistory = st.isUpdatingFromHistory := by
  unfold saveToHistory
  simp only
  split_ifs <;> rfl

theorem saveToHistory_previewHtml (st : Editor) :
    (saveToHistory st).previewHtml = st.previewHtml := by
  unfold saveToHistory
  simp only
  split_ifs <;> rfl

theorem reachable_initial : Reachable initial := by
  refine ⟨rfl, by simp [initial], by simp [initial], Or.inl ⟨rfl, rfl⟩⟩

theorem chain_snoc (pre post : List (List Char)) (cur text : List Char)
    (hc : (pre ++ cur :: post).Chain' (fun a b => a ≠ b)) (hne : cur ≠ text) :
    (pre ++ [cur, text]).Chain' (fun a b => a ≠ b) := by
  have h1 : (pre ++ [cur]).Chain' (fun a b => a ≠ b) := by
    have : pre ++ cur :: post = (pre ++ [cur]) ++ post := by simp
    rw [this] at hc
    exact hc.left_of_append
  have : pre ++ [cur, text] = (pre ++ [cur]) ++ [text] := by simp
  rw [this, List.chain'_append]
  refine ⟨h1, List.chain'_singleton _, ?_⟩
  intro x hx y hy
  simp at hx hy
  subst hx hy
  exact hne

theorem reachable_edit (libs : Libs) (text : List Char) (st : Editor) (h : Reachable st) :
    Reachable (edit libs text st) := by
  obtain ⟨hf, hlen, hchain, hcur⟩ := h
  rcases hcur with ⟨he, hi⟩ | ⟨pre, cur, post, he, hi, _⟩
  · rw [edit_empty libs text st hf he hi]
    refine ⟨rfl, by simp, by simp, Or.inr ⟨[], text, [], rfl, rfl, rfl⟩⟩
  · rw [edit_at libs text st pre post cur hf he hi]
    rw [he] at hlen hchain
    have hl : pre.length + 1 ≤ 100 := by
      simp at hlen
      omega
    have h1 : (pre ++ [cur]).Chain' (fun a b => a ≠ b) := by
      have : pre ++ cur :: post = (pre ++ [cur]) ++ post := by simp
      rw [this] at hchain
      exact hchain.left_of_append
    by_cases hc : cur = text
    · rw [if_pos hc]
      exact ⟨rfl, by simpa using hl, h1, Or.inr ⟨pre, cur, [], rfl, rfl, hc.symm⟩⟩
    · rw [if_neg hc]
      have h2 := chain_snoc pre post cur text hchain hc
      by_cases hbig : 100 < pre.length + 2
      · rw [if_pos hbig]
        cases pre with
        | nil => simp at hbig
        | cons a p =>
          refine ⟨rfl, ?_, ?_, Or.inr ⟨p ++ [cur], text, [], ?_, ?_, rfl⟩⟩
          · simp at hl ⊢
            omega
          · simpa using h2.tail
          · simp
          · simp
      · rw [if_neg hbig]
        refine ⟨rfl, ?_, h2, Or.inr ⟨pre ++ [cur], text, [], ?_, ?_, rfl⟩⟩
        · simp
          omega
        · simp
        · simp

theorem reachable_undo (libs : Libs) (st : Editor) (h : Reachable st) :
    Reachable (undo libs st) := by
  obtain ⟨hf, hlen, hchain, hcur⟩ := h
  rcases hcur with ⟨he, hi⟩ | ⟨pre, cur, post, he, hi, hv⟩
  · rw [undo_first libs st (by omega)]
    exact ⟨hf, hlen, hchain, Or.inl ⟨he, hi⟩⟩
  · rcases pre.eq_nil_or_concat with hp | ⟨p, x, hp⟩
    · subst hp
      rw [undo_first libs st (by simp [hi])]
      exact ⟨hf, hlen, hchain, Or.inr ⟨[], cur, post, he, hi, hv⟩⟩
    · rw [List.concat_eq_append] at hp
      subst hp
      have he2 : st.history = p ++ x :: cur :: post := by rw [he]; simp
      rw [undo_at libs st p post x cur hf he2 hi]
      exact ⟨hf, hlen, hchain, Or.inr ⟨p, x, cur :: post, he2, rfl, rfl⟩⟩

theorem reachable_redo (libs : Libs) (st : Editor) (h : Reachable st) :
    Reachable (redo libs st) := by
  obtain ⟨hf, hlen, hchain, hcur⟩ := h
  rcases hcur with ⟨he, hi⟩ | ⟨pre, cur, post, he, hi, hv⟩
  · rw [redo_last libs st (by simp [he, hi])]
    exact ⟨hf, hlen, hchain, Or.inl ⟨he, hi⟩⟩
  · cases post with
    | nil =>
      rw [redo_last libs st (by simp [he, hi])]
      exact ⟨hf, hlen, hchain, Or.inr ⟨pre, cur, [], he, hi, hv⟩⟩
    | cons y q =>
      rw [redo_at libs st pre q cur y hf he hi]
      exact ⟨hf, hlen, hchain, Or.inr ⟨pre ++ [cur], y, q, by simp [he], rfl, rfl⟩⟩

theorem reachable_resetWith (libs : Libs) (text : List Char) (st : Editor) (h : Reachable st) :
    Reachable (resetWith libs text st) := by
  have h1 : Reachable (updatePreview libs { st with editorValue := text }) :=
    reachable_edit libs text st h
  unfold resetWith
  simp only
  rw [saveToHistory_empty _ rfl rfl]
  exact ⟨h1.1, by simp, by simp, Or.inr ⟨[], _, [], rfl, rfl, rfl⟩⟩

theorem reachable_step (libs : Libs) (st : Editor) (a : Action) (h : Reachable st) :
    Reachable (step libs st a) := by
  cases a with
  | edit text => exact reachable_edit libs text st h
  | undo => exact reachable_undo libs st h
  | redo => exact reachable_redo libs st h
  | newFile confirmed =>
    cases confirmed with
    | true => exact reachable_resetWith libs [] st h
    | false => exact h
  | fileImport content => exact reachable_resetWith libs content st h

theorem reachable_run (libs : Libs) (actions : List Action) (st : Editor) (h : Reachable st) :
    Reachable (run libs st actions) := by
  induction actions generalizing st with
  | nil => exact h
  | cons a rest ih => exact ih (step libs st a) (reachable_step libs st a h)

theorem reachable_of_run (libs : Libs) (actions : List Action) :
    Reachable (run libs initial actions) :=
  reachable_run libs actions initial reachable_initial

/-- The functions `undo` and `redo` never write the preview pane. -/
theorem undo_redo_previewHtml (libs : Libs) (st : Editor) :
    (undo libs st).previewHtml = st.previewHtml ∧ (redo libs st).previewHtml = st.previewHtml := by
  constructor
  · unfold undo updatePreview
    simp only
    split_ifs <;> simp_all
  · unfold redo updatePreview
    simp only
    split_ifs <;> simp_all

/-! ## Claims -/

/-- C1, as stated, fails: after recording `a` and `b` and undoing once the
cursor is `0`; a further Undo does nothing and the Redo that follows moves the
document text from `a` to `b`. -/
theorem undo_redo_counterexample :
    (redo plainLibs (undo plainLibs
      (run plainLibs initial [Action.edit ['a'], Action.edit ['b'], Action.undo]))).editorValue
    ≠ (run plainLibs initial [Action.edit ['a'], Action.edit ['b'], Action.undo]).editorValue := by
  decide

/-- C1, amended: in every state reached from the initial state, Undo followed
at once by Redo leaves the document text as it was before the Undo exactly
when the cursor is above `0` (the Undo takes effect) or at the last index (the
Redo has nothing to replay). -/
theorem undo_redo_restores_iff (libs : Libs) (actions : List Action) :
    (redo libs (undo libs (run libs initial actions))).editorValue
        = (run libs initial actions).editorValue ↔
      (0 < (run libs initial actions).historyIndex ∨
        (run libs initial actions).historyIndex
          = ((run libs initial actions).history.length : Int) - 1) := by
  obtain ⟨hf, -, hchain, hcur⟩ := reachable_of_run libs actions
  generalize run libs initial actions = st at hf hchain hcur
  rcases hcur with ⟨he, hi⟩ | ⟨pre, cur, post, he, hi, hv⟩
  · have hlast : st.historyIndex = (st.history.length : Int) - 1 := by simp [he, hi]
    rw [undo_first libs st (by omega), redo_last libs st hlast]
    simp [hlast]
  · rcases pre.eq_nil_or_concat with hp | ⟨p, x, hp⟩
    · subst hp
      rw [undo_first libs st (by simp [hi])]
      cases post with
      | nil =>
        have hlast : st.historyIndex = (st.history.length : Int) - 1 := by simp [he, hi]
        rw [redo_last libs st hlast]
        simp [hlast]
      | cons y q =>
        rw [redo_at libs st [] q cur y hf he hi]
        have hne : cur ≠ y := by
          rw [he] at hchain
          simpa using (List.chain'_cons.mp hchain).1
        simp only [hv, he, hi]
        constructor
        · intro h
          exact absurd h.symm hne
        · intro h
          simp at h
          omega
    · rw [List.concat_eq_append] at hp
      subst hp
      have he2 : st.history = p ++ x :: cur :: post := by rw [he]; simp
      rw [undo_at libs st p post x cur hf he2 hi]
      have hr := redo_at libs { st with editorValue := x, historyIndex := (p.length : Int) }
        p post x cur hf he2 rfl
      rw [hr]
      simp only [hv, hi]
      simp

/-- C2: in every state reached from the initial state by edits (Record),
Undo, Redo and the history reset of new-file and import, the cursor satisfies
`-1 <= historyIndex < history.length`. -/
theorem cursor_in_range (libs : Libs) (actions : List Action) :
    -1 ≤ (run libs initial actions).historyIndex ∧
      (run libs initial actions).historyIndex
        < ((run libs initial actions).history.length : Int) := by
  obtain ⟨-, -, -, hcur⟩ := reachable_of_run libs actions
  rcases hcur with ⟨he, hi⟩ | ⟨pre, cur, post, he, hi, -⟩
  · simp [he, hi]
  · rw [he, hi]
    simp
    omega

/-- C3: in every state reached from the empty history no two adjacent history
entries are equal, and recording the same content twice in succession from
the empty history leaves exactly one stored entry. -/
theorem no_adjacent_equal (libs : Libs) (actions : List Action) (text : List Char) :
    (∀ pre a b post, (run libs initial actions).history = pre ++ a :: b :: post → a ≠ b) ∧
      (edit libs text (edit libs text initial)).history = [text] := by
  constructor
  · obtain ⟨-, -, hchain, -⟩ := reachable_of_run libs actions
    intro pre a b post h
    rw [h] at hchain
    exact (List.chain'_cons.mp hchain.right_of_append).1
  · rw [edit_empty libs text initial rfl rfl rfl]
    rw [edit_at libs text _ [] [] text rfl rfl rfl]
    simp

theorem recordAll_snoc (libs : Libs) (st : Editor) (l : List (List Char)) (text : List Char) :
    recordAll libs st (l ++ [text]) = edit libs text (recordAll libs st l) := by
  simp [recordAll, List.foldl_append]

/-- Recording distinct neighbours from the empty history: the last 100 stay. -/
theorem recordAll_chain (libs : Libs) (l : List (List Char))
    (h : l.Chain' (fun a b => a ≠ b)) :
    (recordAll libs initial l).history = l.drop (l.length - 100) ∧
      (recordAll libs initial l).historyIndex = ((min l.length 100 : Nat) : Int) - 1 ∧
      (recordAll libs initial l).isUpdatingFromHistory = false := by
  induction l using List.reverseRecOn with
  | nil => exact ⟨rfl, rfl, rfl⟩
  | append_singleton l text ih =>
    rw [recordAll_snoc]
    rcases l.eq_nil_or_concat with hl | ⟨l', x, hl⟩
    · subst hl
      rw [show recordAll libs initial [] = initial from rfl, edit_empty libs text initial rfl rfl rfl]
      simp
    · rw [List.concat_eq_append] at hl
      subst hl
      obtain ⟨ih1, ih2, ih3⟩ := ih h.left_of_append
      have hne : x ≠ text := by
        have : (l' ++ [x]) ++ [text] = l' ++ x :: [text] := by simp
        rw [this] at h
        exact (List.chain'_cons.mp h.right_of_append).1
      have hdrop : (l' ++ [x]).drop ((l' ++ [x]).length - 100)
          = l'.drop ((l' ++ [x]).length - 100) ++ [x] := by
        apply List.drop_append_of_le_length
        simp
      rw [hdrop] at ih1
      have hpl : (l'.drop ((l' ++ [x]).length - 100)).length = min (l' ++ [x]).length 100 - 1 := by
        simp
        omega
      have hidx : (recordAll libs initial (l' ++ [x])).historyIndex
          = ((l'.drop ((l' ++ [x]).length - 100)).length : Int) := by
        rw [ih2, hpl]
        simp
      rw [edit_at libs text _ _ [] x ih3 ih1 hidx, if_neg hne]
      by_cases hbig : 100 < (l'.drop ((l' ++ [x]).length - 100)).length + 2
      · rw [if_pos hbig]
        have h100 : 100 ≤ (l' ++ [x]).length := by
          rw [hpl] at hbig
          omega
        refine ⟨?_, ?_, rfl⟩
        · simp only
          have e1 : l'.drop ((l' ++ [x]).length - 100) ++ [x, text]
              = ((l' ++ [x]) ++ [text]).drop ((l' ++ [x]).length - 100) := by
            rw [List.drop_append_of_le_length (by omega), hdrop]
            simp
          rw [e1, List.tail_drop]
          congr 1
          simp
          simp at h100
          omega
        · simp only
          rw [hpl]
          simp
          simp at h100
          omega
      · rw [if_neg hbig]
        have h100 : (l' ++ [x]).length < 100 := by
          rw [hpl] at hbig
          simp at hbig ⊢
          omega
        have hz : (l' ++ [x]).length - 100 = 0 := by omega
        refine ⟨?_, ?_, rfl⟩
        · simp only
          rw [hz]
          have hz2 : (l' ++ [x] ++ [text]).length - 100 = 0 := by
            simp at h100 ⊢
            omega
          rw [hz2]
          simp
        · simp only
          rw [hz]
          simp
          simp at h100
          omega

/-- C4: recording pairwise distinct snapshots in order from the empty history
leaves exactly the last `min n 100` of them, in their order, with the cursor at
the last index; after 101 of them the history holds 100 entries and the first
snapshot is gone. -/
theorem record_distinct_keeps_last_hundred (libs : Libs) (snapshots : List (List Char))
    (h : snapshots.Nodup) :
    (recordAll libs initial snapshots).history = snapshots.drop (snapshots.length - 100) ∧
      (recordAll libs initial snapshots).history.length = min snapshots.length 100 ∧
      (recordAll libs initial snapshots).historyIndex
        = ((recordAll libs initial snapshots).history.length : Int) - 1 ∧
      (snapshots.length = 101 →
        (recordAll libs initial snapshots).history.length = 100 ∧
        ∀ s1 ∈ snapshots.head?, s1 ∉ (recordAll libs initial snapshots).history) := by
  have hchain : snapshots.Chain' (fun a b => a ≠ b) := by
    have hp : snapshots.Pairwise (fun a b => a ≠ b) := h
    exact hp.chain'
  obtain ⟨h1, h2, -⟩ := recordAll_chain libs snapshots hchain
  have hlen : (recordAll libs initial snapshots).history.length = min snapshots.length 100 := by
    rw [h1, List.length_drop]
    omega
  refine ⟨h1, hlen, ?_, ?_⟩
  · rw [h2, hlen]
  · intro h101
    refine ⟨by rw [hlen, h101]; rfl, ?_⟩
    intro s1 hs1
    rw [h1, h101]
    cases snapshots with
    | nil => simp at hs1
    | cons a rest =>
      simp at hs1
      subst hs1
      simpa using (List.nodup_cons.mp h).1

theorem sampleSnapshots_nodup : sampleSnapshots.Nodup := by
  unfold sampleSnapshots
  refine List.Nodup.map ?_ (List.nodup_range 101)
  intro a b hab
  have := congrArg List.length hab
  simpa using this

/-- C4 at 101 distinct snapshots: 100 entries are left, and the first snapshot,
the empty text, is not among them. -/
theorem record_distinct_keeps_last_hundred_witness :
    (recordAll plainLibs initial sampleSnapshots).history.length = 100 ∧
      [] ∉ (recordAll plainLibs initial sampleSnapshots).history :=
  have h := (record_distinct_keeps_last_hundred plainLibs sampleSnapshots
    sampleSnapshots_nodup).2.2.2 (by simp [sampleSnapshots])
  ⟨h.1, h.2 [] (by decide)⟩

/-- C5: in a reached state whose cursor `c` is not at the last index, an edit
to `text` keeps the entries `0..c`, drops every entry after `c`, appends `text`
exactly when it differs from the entry at `c`, and leaves the cursor at the
last index, so that a Redo right after it changes nothing. -/
theorem record_prunes_redo_branch (libs : Libs) (actions : List Action) (text : List Char)
    (h : (run libs initial actions).historyIndex
      < ((run libs initial actions).history.length : Int) - 1) :
    0 ≤ (run libs initial actions).historyIndex ∧
      (edit libs text (run libs initial actions)).history
        = (run libs initial actions).history.take
            ((run libs initial actions).historyIndex.toNat + 1) ++
          (if (run libs initial actions).history.get?
              (run libs initial actions).historyIndex.toNat = some text then [] else [text]) ∧
      (edit libs text (run libs initial actions)).historyIndex
        = ((edit libs text (run libs initial actions)).history.length : Int) - 1 ∧
      redo libs (edit libs text (run libs initial actions))
        = edit libs text (run libs initial actions) := by
  obtain ⟨hf, hlen, -, hcur⟩ := reachable_of_run libs actions
  generalize run libs initial actions = st at h hf hlen hcur
  rcases hcur with ⟨he, hi⟩ | ⟨pre, cur, post, he, hi, -⟩
  · rw [he, hi] at h
    simp at h
  · have hpost : 0 < post.length := by
      rw [he, hi] at h
      simp at h
      omega
    have hsmall : ¬ 100 < pre.length + 2 := by
      rw [he] at hlen
      simp at hlen
      omega
    have htake : st.history.take (st.historyIndex.toNat + 1) = pre ++ [cur] := by
      rw [he, hi]
      simp [List.take_append_eq_append_take]
    have hget : st.history.get? st.historyIndex.toNat = some cur := by
      rw [he, hi]
      exact get?_at pre post cur
    have hidx : (edit libs text st).historyIndex
        = ((edit libs text st).history.length : Int) - 1 := by
      rw [edit_at libs text st pre post cur hf he hi]
      by_cases hc : cur = text
      · simp [hc]
      · simp [hc, hsmall]
        omega
    refine ⟨by rw [hi]; omega, ?_, hidx, redo_last libs _ hidx⟩
    rw [htake, hget, edit_at libs text st pre post cur hf he hi]
    by_cases hc : cur = text
    · simp [hc]
    · simp [hc, hsmall]

/-- C5 on a concrete run: after recording `a` and `b` and undoing once, an
edit to `c` prunes `b`. -/
theorem record_prunes_redo_branch_witness :
    (edit plainLibs ['c']
      (run plainLibs initial [Action.edit ['a'], Action.edit ['b'], Action.undo])).history
      = [['a'], ['c']] := by
  have h := (record_prunes_redo_branch plainLibs
    [Action.edit ['a'], Action.edit ['b'], Action.undo] ['c'] (by decide)).2.1
  rw [h]
  decide

/-- C6 fails on the code: after recording `a` and `b`, Undo restores the
document text `a` but returns from `updatePreview` before rendering, so the
preview pane still shows the rendering of `b`, which is not the rendering of
the restored text. -/
theorem undo_leaves_preview_stale :
    (undo plainLibs
        (run plainLibs initial [Action.edit ['a'], Action.edit ['b']])).editorValue = ['a'] ∧
      (undo plainLibs
        (run plainLibs initial [Action.edit ['a'], Action.edit ['b']])).previewHtml
        = renderPreview plainLibs ['b'] ∧
      (undo plainLibs
        (run plainLibs initial [Action.edit ['a'], Action.edit ['b']])).previewHtml
        ≠ renderPreview plainLibs
          (undo plainLibs
            (run plainLibs initial [Action.edit ['a'], Action.edit ['b']])).editorValue := by
  decide

/-! ## Properties of the scans -/

theorem expect_some (p s rest : List Char) (h : expect p s = some rest) : s = p ++ rest := by
  unfold expect at h
  split_ifs at h with hp
  · have hpre : p <+: s := List.isPrefixOf_iff_prefix.mp hp
    obtain ⟨t, ht⟩ := hpre
    subst ht
    simp at h
    rw [h]

theorem lazyUntil_some (stop : List Char) (ok : Char → Bool) (l : List Char) (k : Nat)
    (h : lazyUntil stop ok l = some k) :
    ∃ body, l.take k = body ++ stop ∧ k = body.length + stop.length ∧ ∀ c ∈ body, ok c = true := by
  induction l generalizing k with
  | nil =>
    simp only [lazyUntil] at h
    split_ifs at h with hp
    have : stop = [] := by
      have := List.isPrefixOf_iff_prefix.mp hp
      simpa using this
    subst this
    simp at h
    subst h
    exact ⟨[], by simp⟩
  | cons c cs ih =>
    simp only [lazyUntil] at h
    split_ifs at h with hp hok
    · have hpre : stop <+: c :: cs := List.isPrefixOf_iff_prefix.mp hp
      simp at h
      subst h
      refine ⟨[], ?_, by simp, by simp⟩
      simpa using (List.prefix_iff_eq_take.mp hpre).symm
    · cases hk : lazyUntil stop ok cs with
      | none => simp [hk] at h
      | some j =>
        simp [hk] at h
        subst h
        obtain ⟨body, hb1, hb2, hb3⟩ := ih j hk
        refine ⟨c :: body, by simp [hb1], by simp [hb2]; omega, ?_⟩
        intro d hd
        rcases List.mem_cons.mp hd with rfl | hd
        · exact hok
        · exact hb3 d hd

theorem drop_takeWhile_length (p : Char → Bool) (l : List Char) :
    l.drop (l.takeWhile p).length = l.dropWhile p := by
  induction l with
  | nil => rfl
  | cons a l ih =>
    by_cases ha : p a = true
    · simp [List.takeWhile_cons, List.dropWhile_cons, ha, ih]
    · simp [List.takeWhile_cons, List.dropWhile_cons, ha]

/-- What the first alternative of `mathRegex` matches is a math expression. -/
theorem mathBlockAlt_sound (s : List Char) (n : Nat) (h : mathBlockAlt s = some n) :
    IsMathExpr (s.take n) := by
  unfold mathBlockAlt at h
  cases he : expect ['$', '$'] s with
  | none => simp [he] at h
  | some rest =>
    simp only [he] at h
    have hs := expect_some _ _ _ he
    cases hk : lazyUntil ['$', '$'] (fun _ => true) rest with
    | none => simp [hk] at h
    | some k =>
      simp [hk] at h
      subst h
      obtain ⟨body, hb1, hb2, -⟩ := lazyUntil_some _ _ _ _ hk
      have ht : s.take (k + 2) = ['$', '$'] ++ body ++ ['$', '$'] := by
        rw [hs]
        simp [hb1]
      rw [ht]
      left
      refine ⟨by simp, ⟨body ++ ['$', '$'], by simp⟩, ⟨['$', '$'] ++ body, by simp⟩⟩

/-- What the second alternative of `mathRegex` matches is a math expression. -/
theorem mathInlineAlt_sound (s : List Char) (n : Nat) (h : mathInlineAlt s = some n) :
    IsMathExpr (s.take n) := by
  unfold mathInlineAlt at h
  cases he : expect ['$'] s with
  | none => simp [he] at h
  | some rest =>
    simp only [he] at h
    have hs := expect_some _ _ _ he
    split_ifs at h with hc
    obtain ⟨h1, h2⟩ := hc
    simp at h
    subst h
    have hpre : ['$'] <+: rest.drop (rest.takeWhile inlineMathChar).length :=
      List.isPrefixOf_iff_prefix.mp h2
    obtain ⟨t, ht⟩ := hpre
    have hrest : rest = rest.takeWhile inlineMathChar ++ ('$' :: t) := by
      conv_lhs => rw [← List.takeWhile_append_dropWhile inlineMathChar rest]
      rw [← drop_takeWhile_length, ← ht]
      simp
    have hall : ∀ c ∈ rest.takeWhile inlineMathChar, inlineMathChar c = true :=
      fun c hc => List.mem_takeWhile_imp hc
    generalize rest.takeWhile inlineMathChar = r at h1 hrest hall
    have ht2 : s.take (r.length + 2) = '$' :: (r ++ ['$']) := by
      rw [hs, hrest]
      simp [List.take_append_eq_append_take]
    rw [ht2]
    right
    refine ⟨by simp; omega, ⟨r ++ ['$'], by simp⟩, ⟨'$' :: r, by simp⟩, ?_⟩
    intro c hc
    simp at hc
    exact hall c hc

/-- A scan whose pattern matches nowhere cuts the subject into its
characters. -/
theorem scanFrom_no_match {α : Type} (matchAt : List Char → List Char → Option (Nat × α))
    (s : List Char) (pre : List Char)
    (h : ∀ pre1 s1, s1 <:+ s → matchAt pre1 s1 = none) :
    scanFrom matchAt pre 0 s = s.map Seg.lit := by
  induction s generalizing pre with
  | nil => rfl
  | cons c cs ih =>
    have h0 := h pre (c :: cs) (List.suffix_refl _)
    simp only [scanFrom, h0, List.map_cons]
    rw [ih]
    intro pre1 s1 hs1
    exact h pre1 s1 (hs1.trans (List.suffix_cons c cs))

theorem isolate_fold_lits (s acc : List Char) (blocks : List (List Char)) :
    (s.map (Seg.lit : Char → Seg Unit)).foldl
      (fun acc seg =>
        match seg with
        | Seg.lit c => (acc.1 ++ [c], acc.2)
        | Seg.hit h => (acc.1 ++ placeholder acc.2.length, acc.2 ++ [processMatch h.matched]))
      (acc, blocks) = (acc ++ s, blocks) := by
  induction s generalizing acc with
  | nil => simp
  | cons c cs ih =>
    simp only [List.map_cons, List.foldl_cons]
    rw [ih]
    simp

/-- C7: a document text with no `$` holds no math expression, and on a
document text of which no part is a math expression the Math-Block Isolator
answers the text unchanged and an empty list of expressions. -/
theorem isolateMath_without_math (T : List Char) :
    ('$' ∉ T → ∀ m, m <:+: T → ¬ IsMathExpr m) ∧
      ((∀ m, m <:+: T → ¬ IsMathExpr m) → isolateMath T = (T, [])) := by
  constructor
  · intro hT m hm hmath
    have hno : '$' ∉ m := fun hin => hT (hm.subset hin)
    rcases hmath with ⟨-, hp, -⟩ | ⟨-, hp, -⟩
    · exact hno (hp.subset (by simp))
    · exact hno (hp.subset (by simp))
  · intro h
    have hnone : ∀ pre1 s1, s1 <:+ T → mathRegex pre1 s1 = none := by
      intro pre1 s1 hs1
      unfold mathRegex
      cases hb : mathBlockAlt s1 with
      | some n =>
        exact absurd (mathBlockAlt_sound s1 n hb)
          (h _ ((List.take_prefix n s1).isInfix.trans hs1.isInfix))
      | none =>
        cases hi : mathInlineAlt s1 with
        | some n =>
          exact absurd (mathInlineAlt_sound s1 n hi)
            (h _ ((List.take_prefix n s1).isInfix.trans hs1.isInfix))
        | none => simp [Option.orElse]
    unfold isolateMath scan
    rw [scanFrom_no_match mathRegex T [] hnone, isolate_fold_lits]
    simp

/-- C7 on the text `Hello, world`. -/
theorem isolateMath_without_math_witness :
    isolateMath "Hello, world".toList = ("Hello, world".toList, []) :=
  (isolateMath_without_math "Hello, world".toList).2
    ((isolateMath_without_math "Hello, world".toList).1 (by decide))

theorem scanFrom_skip_all {α : Type} (matchAt : List Char → List Char → Option (Nat × α))
    (s pre : List Char) (k : Nat) (h : s.length ≤ k) : scanFrom matchAt pre k s = [] := by
  induction s generalizing pre k with
  | nil => cases k <;> rfl
  | cons c cs ih =>
    cases k with
    | zero => simp at h
    | succ k =>
      simp only [scanFrom]
      exact ih _ k (by simpa using h)

theorem lazyUntil_dollars (x : List Char) (h : '$' ∉ x) :
    lazyUntil ['$', '$'] (fun _ => true) (x ++ ['$', '$']) = some (x.length + 2) := by
  induction x with
  | nil => rfl
  | cons c cs ih =>
    have hc : c ≠ '$' := fun e => h (by simp [e])
    have hcs : '$' ∉ cs := fun e => h (by simp [e])
    simp [lazyUntil, ih hcs, hc.symm]

/-- The scan of the math pattern over `$$x$$`, for `x` without `$`: one match,
the whole text. -/
theorem scan_double_delimited (x : List Char) (h : '$' ∉ x) :
    scan mathRegex (['$', '$'] ++ x ++ ['$', '$'])
      = [Seg.hit ⟨[], ['$', '$'] ++ x ++ ['$', '$'], [], ()⟩] := by
  have hb : mathBlockAlt ('$' :: '$' :: (x ++ ['$', '$'])) = some (x.length + 4) := by
    simp [mathBlockAlt, expect, lazyUntil_dollars x h]
  have hm : mathRegex [] ('$' :: '$' :: (x ++ ['$', '$'])) = some (x.length + 4, ()) := by
    simp [mathRegex, hb, Option.orElse]
  have hl : ('$' :: '$' :: (x ++ ['$', '$'])).length = x.length + 4 := by simp
  have e : ['$', '$'] ++ x ++ ['$', '$'] = '$' :: '$' :: (x ++ ['$', '$']) := by simp
  rw [e]
  simp only [scan, scanFrom, hm]
  rw [scanFrom_skip_all _ _ _ _ (by simp)]
  rw [← hl, List.take_length, List.drop_length]

theorem restoreMath_placeholder (b : List Char) :
    restoreMath (placeholder 0) [b] = b ∧
      restoreMath ("<p>".toList ++ placeholder 0 ++ "</p>".toList) [b] = b := by
  have h1 : scan restoreRegex (placeholder 0)
      = [Seg.hit ⟨[], placeholder 0, [], ['0']⟩] := by rfl
  have h2 : scan restoreRegex ("<p>".toList ++ placeholder 0 ++ "</p>".toList)
      = [Seg.hit ⟨[], "<p>".toList ++ placeholder 0 ++ "</p>".toList, [], ['0']⟩] := by rfl
  constructor
  · simp only [restoreMath, jsReplace, h1]
    simp [segText, blockAt, parseInt]
  · simp only [restoreMath, jsReplace, h2]
    simp [segText, blockAt, parseInt]

/-- C8: for a body `x` without `$`, isolating `$$x$$` leaves the placeholder of
index 0 and stores exactly one expression: `$x$` when `x` holds no line break,
`$$x$$` unchanged when it holds one; restoring the placeholder, bare or wrapped
in a paragraph tag, gives back the stored expression. -/
theorem double_delimited_isolation (x : List Char) (h : '$' ∉ x) :
    ('\n' ∉ x →
      isolateMath (['$', '$'] ++ x ++ ['$', '$']) = (placeholder 0, [['$'] ++ x ++ ['$']]) ∧
      restoreMath (isolateMath (['$', '$'] ++ x ++ ['$', '$'])).1
        (isolateMath (['$', '$'] ++ x ++ ['$', '$'])).2 = ['$'] ++ x ++ ['$'] ∧
      restoreMath ("<p>".toList ++ (isolateMath (['$', '$'] ++ x ++ ['$', '$'])).1 ++ "</p>".toList)
        (isolateMath (['$', '$'] ++ x ++ ['$', '$'])).2 = ['$'] ++ x ++ ['$']) ∧
    ('\n' ∈ x →
      isolateMath (['$', '$'] ++ x ++ ['$', '$'])
        = (placeholder 0, [['$', '$'] ++ x ++ ['$', '$']]) ∧
      restoreMath (isolateMath (['$', '$'] ++ x ++ ['$', '$'])).1
        (isolateMath (['$', '$'] ++ x ++ ['$', '$'])).2 = ['$', '$'] ++ x ++ ['$', '$'] ∧
      restoreMath ("<p>".toList ++ (isolateMath (['$', '$'] ++ x ++ ['$', '$'])).1 ++ "</p>".toList)
        (isolateMath (['$', '$'] ++ x ++ ['$', '$'])).2 = ['$', '$'] ++ x ++ ['$', '$']) := by
  have hiso : isolateMath (['$', '$'] ++ x ++ ['$', '$'])
      = (placeholder 0, [processMatch (['$', '$'] ++ x ++ ['$', '$'])]) := by
    simp only [isolateMath, scan_double_delimited x h]
    simp
  have hsub : jsSubstring (['$', '$'] ++ x ++ ['$', '$'])
      2 ((['$', '$'] ++ x ++ ['$', '$']).length - 2) = x := by
    simp [jsSubstring, List.take_append_eq_append_take]
  constructor
  · intro hn
    have hp : processMatch (['$', '$'] ++ x ++ ['$', '$']) = ['$'] ++ x ++ ['$'] := by
      unfold processMatch
      rw [hsub]
      simp [List.isPrefixOf, hn]
    rw [hiso, hp]
    exact ⟨rfl, (restoreMath_placeholder _).1, (restoreMath_placeholder _).2⟩
  · intro hn
    have hp : processMatch (['$', '$'] ++ x ++ ['$', '$']) = ['$', '$'] ++ x ++ ['$', '$'] := by
      unfold processMatch
      simp [List.isPrefixOf, hn]
    rw [hiso, hp]
    exact ⟨rfl, (restoreMath_placeholder _).1, (restoreMath_placeholder _).2⟩

/-- C8 on the two examples of the specification: `$$a+b$$` is stored and
restored as `$a+b$`, and the same body on a line of its own keeps its double
delimiters. -/
theorem double_delimited_isolation_witness :
    isolateMath "$$a+b$$".toList = (placeholder 0, ["$a+b$".toList]) ∧
      isolateMath "$$\na+b\n$$".toList = (placeholder 0, ["$$\na+b\n$$".toList]) :=
  ⟨((double_delimited_isolation "a+b".toList (by decide)).1 (by decide)).1,
    ((double_delimited_isolation "\na+b\n".toList (by decide)).2 (by decide)).1⟩

/-! ## Properties of the table of contents -/

theorem jsRepeat_render (t : TocTag) (n : Nat) :
    jsRepeat t.render n = ((List.replicate n t).map TocTag.render).flatten := by
  simp [jsRepeat, List.map_replicate]

/-- The text built by the loop of `generateTOC`, closed by the final `</ul>`
tags, is the text of the tags of `tocTags`. -/
theorem tocStep_fold (tocData : List TocEntry) (acc : List Char) (currentLevel : Nat) :
    (tocData.foldl tocStep (acc, currentLevel)).1 ++
        jsRepeat "</ul>".toList (tocData.foldl tocStep (acc, currentLevel)).2
      = acc ++ ((tocTags currentLevel tocData).map TocTag.render).flatten := by
  induction tocData generalizing acc currentLevel with
  | nil =>
    simp only [List.foldl_nil, tocTags]
    rw [← jsRepeat_render TocTag.ulClose]
    rfl
  | cons item rest ih =>
    simp only [List.foldl_cons, tocTags]
    rw [show tocStep (acc, currentLevel) item = ((tocStep (acc, currentLevel) item).1, item.level)
      from rfl, ih]
    simp only [tocStep]
    by_cases h1 : item.level > currentLevel
    · simp only [if_pos h1, List.map_append, List.flatten_append, List.map_cons,
        List.flatten_cons, ← jsRepeat_render, List.append_assoc]
      rfl
    · by_cases h2 : item.level < currentLevel
      · simp only [if_neg h1, if_pos h2, List.map_append, List.flatten_append, List.map_cons,
          List.flatten_cons, ← jsRepeat_render, List.append_assoc]
        rfl
      · simp only [if_neg h1, if_neg h2, List.map_append, List.flatten_append, List.map_cons,
          List.flatten_cons, List.append_assoc, List.map_nil, List.flatten_nil, List.nil_append]
        rfl

theorem liDepths_opens (n depth : Nat) (rest : List TocTag) :
    liDepths depth (List.replicate n TocTag.ulOpen ++ rest) = liDepths (depth + n) rest := by
  induction n generalizing depth with
  | zero => rfl
  | succ n ih =>
    simp only [List.replicate_succ, List.cons_append, liDepths]
    rw [ih]
    congr 1
    omega

theorem liDepths_closes (n depth : Nat) (rest : List TocTag) :
    liDepths (depth + n) (List.replicate n TocTag.ulClose ++ rest) = liDepths depth rest := by
  induction n generalizing depth with
  | zero => rfl
  | succ n ih =>
    rw [show depth + (n + 1) = (depth + n) + 1 from rfl]
    simp only [List.replicate_succ, List.cons_append, liDepths]
    exact ih depth

/-- Read from depth `currentLevel`, the tags of `tocTags` put every entry at
the depth of its level and close every list. -/
theorem liDepths_tocTags (tocData : List TocEntry) (currentLevel : Nat) :
    liDepths currentLevel (tocTags currentLevel tocData)
      = some (tocData.map (fun e => (e.level, e)), 0) := by
  induction tocData generalizing currentLevel with
  | nil =>
    have := liDepths_closes currentLevel 0 []
    simpa [tocTags, liDepths] using this
  | cons item rest ih =>
    simp only [tocTags]
    by_cases h1 : item.level > currentLevel
    · rw [if_pos h1, liDepths_opens]
      have e : currentLevel + (item.level - currentLevel) = item.level := by omega
      rw [e]
      simp [liDepths, ih]
    · by_cases h2 : item.level < currentLevel
      · rw [if_neg h1, if_pos h2]
        have e : currentLevel = item.level + (currentLevel - item.level) := by omega
        conv_lhs => rw [e]
        rw [show item.level + (currentLevel - item.level) - item.level
          = currentLevel - item.level from by omega]
        rw [liDepths_closes]
        simp [liDepths, ih]
      · have e : currentLevel = item.level := by omega
        subst e
        simp [liDepths, ih]

/-! ## Properties of the anchor id -/

theorem segText_lit {α : Type} (f : Hit α → List Char) (c : Char) (r : List (Seg α)) :
    segText f (Seg.lit c :: r) = c :: segText f r := by
  simp [segText]

theorem segText_hit {α : Type} (f : Hit α → List Char) (h : Hit α) (r : List (Seg α)) :
    segText f (Seg.hit h :: r) = f h ++ segText f r := by
  simp [segText]

/-- Passing the rest of a match is the same as resuming the scan after
it. -/
theorem scanFrom_skip {α : Type} (matchAt : List Char → List Char → Option (Nat × α))
    (s pre : List Char) (k : Nat) :
    scanFrom matchAt pre k s = scanFrom matchAt (pre ++ s.take k) 0 (s.drop k) := by
  induction s generalizing pre k with
  | nil => cases k <;> simp [scanFrom]
  | cons c cs ih =>
    cases k with
    | zero => simp
    | succ k =>
      simp only [scanFrom, List.take_succ_cons, List.drop_succ_cons]
      rw [ih]
      simp

theorem nonWordRegex_word (pre : List Char) (c : Char) (cs : List Char)
    (h : isWordOrCjk c = true) : nonWordRegex pre (c :: cs) = none := by
  simp [nonWordRegex, List.takeWhile_cons, h]

theorem nonWordRegex_nonword (pre : List Char) (c : Char) (cs : List Char)
    (h : isWordOrCjk c = false) :
    nonWordRegex pre (c :: cs)
      = some ((cs.takeWhile (fun c => !isWordOrCjk c)).length + 1, ()) := by
  simp [nonWordRegex, List.takeWhile_cons, h]

theorem dropWhile_head_not (p : Char → Bool) (l : List Char) (d : Char) (rest : List Char)
    (h : l.dropWhile p = d :: rest) : p d = false := by
  induction l with
  | nil => simp at h
  | cons a l ih =>
    by_cases ha : p a = true
    · simp [List.dropWhile_cons, ha] at h
      exact ih h
    · simp [List.dropWhile_cons, ha] at h
      obtain ⟨rfl, -⟩ := h
      simpa using ha

/-- The text left by the replacement of the runs of other characters: word
characters of the subject and hyphens, no two hyphens side by side, and a word
character at the start of the subject stays at the start. -/
theorem hyphenate_spec (n : Nat) (s pre : List Char) (hn : s.length ≤ n) :
    (∀ c ∈ segText (fun _ => ['-']) (scanFrom nonWordRegex pre 0 s),
        (c ∈ s ∧ isWordOrCjk c = true) ∨ c = '-') ∧
      (segText (fun _ => ['-']) (scanFrom nonWordRegex pre 0 s)).Chain'
        (fun a b => ¬ (a = '-' ∧ b = '-')) ∧
      (∀ d rest, s = d :: rest → isWordOrCjk d = true →
        ∃ r, segText (fun _ => ['-']) (scanFrom nonWordRegex pre 0 s) = d :: r) := by
  induction n generalizing s pre with
  | zero =>
    have : s = [] := List.length_eq_zero.mp (by omega)
    subst this
    simp [scanFrom, segText]
  | succ n ih =>
    cases s with
    | nil => simp [scanFrom, segText]
    | cons c cs =>
      have hcs : cs.length ≤ n := by simpa using hn
      by_cases hw : isWordOrCjk c = true
      · have hc : c ≠ '-' := by
          intro e
          subst e
          exact absurd hw (by decide)
        obtain ⟨i1, i2, -⟩ := ih cs (pre ++ [c]) hcs
        simp only [scanFrom, nonWordRegex_word pre c cs hw, segText_lit]
        refine ⟨?_, ?_, ?_⟩
        · intro x hx
          rcases List.mem_cons.mp hx with rfl | hx
          · exact Or.inl ⟨by simp, hw⟩
          · rcases i1 x hx with ⟨h1, h2⟩ | h1
            · exact Or.inl ⟨List.mem_cons_of_mem _ h1, h2⟩
            · exact Or.inr h1
        · refine List.Chain'.cons' i2 ?_
          intro y _ hy
          exact hc hy.1
        · intro d rest hd _
          obtain ⟨rfl, -⟩ := List.cons.inj hd
          exact ⟨_, rfl⟩
      · have hw2 : isWordOrCjk c = false := by simpa using hw
        have hdl : (cs.drop (cs.takeWhile (fun c => !isWordOrCjk c)).length).length ≤ n := by
          simp
          omega
        obtain ⟨i1, i2, i3⟩ := ih (cs.drop (cs.takeWhile (fun c => !isWordOrCjk c)).length)
          (pre ++ [c] ++ cs.take (cs.takeWhile (fun c => !isWordOrCjk c)).length) hdl
        simp only [scanFrom, nonWordRegex_nonword pre c cs hw2, segText_hit,
          Nat.add_sub_cancel]
        rw [scanFrom_skip]
        refine ⟨?_, ?_, ?_⟩
        · intro x hx
          rcases List.mem_cons.mp hx with rfl | hx
          · exact Or.inr rfl
          · rcases i1 x hx with ⟨h1, h2⟩ | h1
            · exact Or.inl ⟨List.mem_cons_of_mem _ (List.mem_of_mem_drop h1), h2⟩
            · exact Or.inr h1
        · refine List.Chain'.cons' i2 ?_
          intro y hy hyy
          cases hd : cs.drop (cs.takeWhile (fun c => !isWordOrCjk c)).length with
          | nil =>
            rw [hd] at hy
            simp [scanFrom, segText] at hy
          | cons d rest =>
            have hnot : (fun c => !isWordOrCjk c) d = false := by
              apply dropWhile_head_not _ cs d rest
              rw [← drop_takeWhile_length]
              exact hd
            have hdw : isWordOrCjk d = true := by simpa using hnot
            obtain ⟨r, hr⟩ := i3 d rest hd hdw
            rw [hr] at hy
            simp at hy
            subst hy
            rw [hyy.2] at hdw
            revert hdw
            decide
        · intro d rest hd hdw
          obtain ⟨rfl, -⟩ := List.cons.inj hd
          rw [hw2] at hdw
          exact absurd hdw (by decide)

theorem edgeHyphenRegex_inner (pre s : List Char) (hpre : pre ≠ []) :
    edgeHyphenRegex pre s =
      if 1 ≤ (s.takeWhile (fun c => c == '-')).length ∧ s.dropWhile (fun c => c == '-') = []
      then some ((s.takeWhile (fun c => c == '-')).length, ()) else none := by
  simp only [edgeHyphenRegex, hpre, false_and, if_false, drop_takeWhile_length]

/-- Past the start of the subject the edge pattern only removes a run of
hyphens that reaches the end: what is left is a prefix of the subject that
does not end with a hyphen, is empty only when the subject holds nothing but
hyphens, and keeps a first character other than a hyphen. -/
theorem trim_inner (s pre : List Char) (hpre : pre ≠ []) :
    segText (fun _ => []) (scanFrom edgeHyphenRegex pre 0 s) <+: s ∧
      (segText (fun _ => []) (scanFrom edgeHyphenRegex pre 0 s)).getLast? ≠ some '-' ∧
      (segText (fun _ => []) (scanFrom edgeHyphenRegex pre 0 s) = [] → ∀ c ∈ s, c = '-') ∧
      (∀ d rest, s = d :: rest → d ≠ '-' →
        ∃ r, segText (fun _ => []) (scanFrom edgeHyphenRegex pre 0 s) = d :: r) := by
  induction s generalizing pre with
  | nil => simp [scanFrom, segText]
  | cons c cs ih =>
    by_cases hhit : 1 ≤ ((c :: cs).takeWhile (fun c => c == '-')).length ∧
        (c :: cs).dropWhile (fun c => c == '-') = []
    · have hall : ∀ x ∈ c :: cs, x = '-' := by
        intro x hx
        have := (List.dropWhile_eq_nil_iff.mp hhit.2) x hx
        simpa using this
      have hk : (c :: cs).length ≤ ((c :: cs).takeWhile (fun c => c == '-')).length := by
        have : (c :: cs).takeWhile (fun c => c == '-') = c :: cs := by
          rw [List.takeWhile_eq_self_iff]
          intro x hx
          simpa using hall x hx
        rw [this]
      simp only [scanFrom, edgeHyphenRegex_inner pre (c :: cs) hpre, if_pos hhit, segText_hit]
      rw [scanFrom_skip_all _ _ _ _ (by simp at hk ⊢; omega)]
      refine ⟨by simp [segText], by simp [segText], fun _ => hall, ?_⟩
      intro d rest hd hne
      obtain ⟨rfl, -⟩ := List.cons.inj hd
      exact absurd (hall _ (by simp)) hne
    · obtain ⟨i1, i2, i3, -⟩ := ih (pre ++ [c]) (by simp)
      simp only [scanFrom, edgeHyphenRegex_inner pre (c :: cs) hpre, if_neg hhit, segText_lit]
      refine ⟨?_, ?_, by simp, ?_⟩
      · exact (List.prefix_cons_inj c).mpr i1
      · cases hv : segText (fun _ => []) (scanFrom edgeHyphenRegex (pre ++ [c]) 0 cs) with
        | nil =>
          simp only [List.getLast?_singleton, ne_eq, Option.some.injEq]
          intro hc
          subst hc
          apply hhit
          have hall : ∀ x ∈ '-' :: cs, x = '-' := by
            intro x hx
            rcases List.mem_cons.mp hx with rfl | hx
            · rfl
            · exact i3 hv x hx
          refine ⟨by simp [List.takeWhile_cons], ?_⟩
          rw [List.dropWhile_eq_nil_iff]
          intro x hx
          simpa using hall x hx
        | cons a v =>
          rw [hv] at i2
          simpa [List.getLast?_cons_cons] using i2
      · intro d rest hd _
        obtain ⟨rfl, -⟩ := List.cons.inj hd
        exact ⟨_, rfl⟩

/-- The text left by the edge pattern over a whole subject: a part of the
subject that neither starts nor ends with a hyphen. -/
theorem trim_spec (u : List Char) :
    jsReplace edgeHyphenRegex (fun _ => []) u <:+: u ∧
      (jsReplace edgeHyphenRegex (fun _ => []) u).head? ≠ some '-' ∧
      (jsReplace edgeHyphenRegex (fun _ => []) u).getLast? ≠ some '-' := by
  unfold jsReplace scan
  cases u with
  | nil => simp [scanFrom, segText]
  | cons c cs =>
    by_cases hc : c = '-'
    · subst hc
      have hm : edgeHyphenRegex [] ('-' :: cs)
          = some ((cs.takeWhile (fun c => c == '-')).length + 1, ()) := by
        simp [edgeHyphenRegex, List.takeWhile_cons]
      simp only [scanFrom, hm, segText_hit, Nat.add_sub_cancel, List.nil_append]
      rw [scanFrom_skip, drop_takeWhile_length]
      obtain ⟨i1, i2, -, i4⟩ := trim_inner (cs.dropWhile (fun c => c == '-'))
        (['-'] ++ cs.take (cs.takeWhile (fun c => c == '-')).length) (by simp)
      refine ⟨?_, ?_, i2⟩
      · exact i1.isInfix.trans
          ((List.dropWhile_suffix _).isInfix.trans (List.suffix_cons '-' cs).isInfix)
      · cases hd : cs.dropWhile (fun c => c == '-') with
        | nil => simp [scanFrom, segText]
        | cons d rest =>
          have hnot := dropWhile_head_not _ cs d rest hd
          have hne : d ≠ '-' := by simpa using hnot
          rw [hd] at i4
          obtain ⟨r, hr⟩ := i4 d rest rfl hne
          rw [hr]
          simpa using hne
    · have hm : edgeHyphenRegex [] (c :: cs) = none := by
        simp [edgeHyphenRegex, List.takeWhile_cons, hc]
      obtain ⟨i1, i2, -, -⟩ := trim_inner cs ([] ++ [c]) (by simp)
      simp only [scanFrom, hm, segText_lit]
      refine ⟨((List.prefix_cons_inj c).mpr i1).isInfix, by simpa using hc, ?_⟩
      cases hv : segText (fun _ => []) (scanFrom edgeHyphenRegex ([] ++ [c]) 0 cs) with
      | nil => simpa using hc
      | cons a v =>
        rw [hv] at i2
        simpa [List.getLast?_cons_cons] using i2

theorem isIdChar_of_word (c : Char) (hw : isWordOrCjk c = true) (hu : c.isUpper = false) :
    isIdChar c = true := by
  simp only [isWordOrCjk, Char.isAlphanum, Char.isAlpha, hu, Bool.false_or] at hw
  simp only [isIdChar]
  simp only [Bool.or_eq_true] at hw ⊢
  tauto

/-- The anchor id computed from any clean text. -/
theorem anchorId_spec (toLowerCase : List Char → List Char) (clean : List Char)
    (hlow : ∀ c ∈ toLowerCase clean, c.isUpper = false) :
    (∀ c ∈ anchorId toLowerCase clean, isIdChar c = true) ∧
      (anchorId toLowerCase clean).head? ≠ some '-' ∧
      (anchorId toLowerCase clean).getLast? ≠ some '-' ∧
      ¬ ['-', '-'] <:+: anchorId toLowerCase clean := by
  unfold anchorId
  generalize toLowerCase clean = t at hlow ⊢
  obtain ⟨h1, h2, -⟩ := hyphenate_spec t.length t [] (le_refl _)
  obtain ⟨k1, k2, k3⟩ := trim_spec (jsReplace nonWordRegex (fun _ => ['-']) t)
  refine ⟨?_, k2, k3, ?_⟩
  · intro c hc
    rcases h1 c (k1.subset hc) with ⟨hm, hw⟩ | rfl
    · exact isIdChar_of_word c hw (hlow c hm)
    · rfl
  · intro hdd
    obtain ⟨a, b, hab⟩ := hdd.trans k1
    have h2' : (jsReplace nonWordRegex (fun _ => ['-']) t).Chain'
        (fun a b => ¬ (a = '-' ∧ b = '-')) := h2
    rw [← hab] at h2'
    have := (List.chain'_cons.mp h2'.left_of_append.right_of_append).1
    exact this ⟨rfl, rfl⟩

/-- C10: the anchor id of a heading holds only the characters `a`-`z`,
`0`-`9`, `_`, CJK ideographs U+4E00..U+9FA5 and `-`, neither starts nor ends
with `-`, and holds no two `-` side by side; `toLowerCase` is taken to leave
none of the letters `A`-`Z` in the clean text. -/
theorem anchorId_safe (toLowerCase : List Char → List Char) (text : List Char) (level : Nat)
    (rawtext : List Char)
    (hlow : ∀ c ∈ toLowerCase (cleanText rawtext), c.isUpper = false) :
    (∀ c ∈ (heading toLowerCase text level rawtext).1.id, isIdChar c = true) ∧
      (heading toLowerCase text level rawtext).1.id.head? ≠ some '-' ∧
      (heading toLowerCase text level rawtext).1.id.getLast? ≠ some '-' ∧
      ¬ ['-', '-'] <:+: (heading toLowerCase text level rawtext).1.id :=
  anchorId_spec toLowerCase (cleanText rawtext) hlow

/-- C10 on a heading with capitals, punctuation, highlight marks, a tag and
CJK text. -/
theorem anchorId_safe_witness :
    (heading asciiLowerCase [] 1 "- ==Hello==, <b>World</b>! 你好 --".toList).1.id
        = "hello-world-你好".toList ∧
      ¬ ['-', '-'] <:+:
        (heading asciiLowerCase [] 1 "- ==Hello==, <b>World</b>! 你好 --".toList).1.id :=
  ⟨by rfl,
    (anchorId_safe asciiLowerCase [] 1 "- ==Hello==, <b>World</b>! 你好 --".toList
      (by decide)).2.2.2⟩

/-! ## Properties of the emitted table of contents -/

theorem refutes_sound (p b after : List Char) (h : refutes p b = true) : ¬ p <+: b ++ after := by
  induction p generalizing b with
  | nil => simp [refutes] at h
  | cons p0 ps ih =>
    cases b with
    | nil => simp [refutes] at h
    | cons b0 bs =>
      simp only [refutes, Bool.or_eq_true, bne_iff_ne, ne_eq] at h
      intro hp
      rw [List.cons_append, List.cons_prefix_cons] at hp
      rcases h with h | h
      · exact h hp.1
      · exact ih bs h hp.2

/-- A text that refutes a pattern at every place is inert whatever follows. -/
theorem inert_of_inertText (patterns : List (List Char)) (block after : List Char)
    (h : ∀ p ∈ patterns, inertText p block = true) : Inert patterns block after := by
  intro p hp a b hab hb
  have hall := List.all_eq_true.mp (h p hp) b ((List.mem_tails b block).mpr ⟨a, hab.symm⟩)
  have hne : b.isEmpty = false := by
    cases b with
    | nil => exact absurd rfl hb
    | cons _ _ => rfl
  rw [hne, Bool.false_or] at hall
  exact refutes_sound p b after hall

/-- Two inert texts in a row are inert. -/
theorem inert_append (patterns : List (List Char)) (b1 b2 after : List Char)
    (h1 : Inert patterns b1 (b2 ++ after)) (h2 : Inert patterns b2 after) :
    Inert patterns (b1 ++ b2) after := by
  intro p hp a b hab hb
  rcases List.append_eq_append_iff.mp hab with ⟨a1, ha, hb2⟩ | ⟨c1, hb1, hbb⟩
  · exact h2 p hp a1 b hb2 hb
  · by_cases hc : c1 = []
    · subst hc
      simp at hbb
      subst hbb
      exact h2 p hp [] b rfl hb
    · have := h1 p hp a c1 hb1 hc
      rw [hbb, List.append_assoc]
      exact this

/-- A text without `<` is inert for tag patterns. -/
theorem inert_of_no_lt (patterns : List (List Char)) (block after : List Char)
    (hpat : ∀ p ∈ patterns, IsTagPattern p) (h : ∀ c ∈ block, c ≠ '<') :
    Inert patterns block after := by
  intro p hp a b hab hb hpre
  obtain ⟨body, rfl, -, -⟩ := hpat p hp
  cases b with
  | nil => exact hb rfl
  | cons b0 bs =>
    rw [List.cons_append, List.cons_prefix_cons] at hpre
    apply h b0 _ hpre.1.symm
    rw [hab]
    simp

/-- A text that holds no tag is inert for tag patterns when a `<` follows
it. -/
theorem inert_of_tagFree (patterns : List (List Char)) (block more : List Char)
    (hpat : ∀ p ∈ patterns, IsTagPattern p) (h : TagFree block) :
    Inert patterns block ('<' :: more) := by
  intro p hp a b hab hb hpre
  obtain ⟨body, rfl, hlt, hgt⟩ := hpat p hp
  cases b with
  | nil => exact hb rfl
  | cons b0 bs =>
    rw [List.cons_append, List.cons_prefix_cons] at hpre
    obtain ⟨hb0, hbody⟩ := hpre
    subst hb0
    have hfree : '>' ∉ bs := h a bs hab
    have hbs : bs <+: bs ++ '<' :: more := List.prefix_append _ _
    rcases List.prefix_or_prefix_of_prefix hbody hbs with h1 | h1
    · exact hfree (h1.subset hgt)
    · obtain ⟨t, ht⟩ := h1
      rw [← ht] at hbody
      have ht2 : t <+: '<' :: more := (List.prefix_append_right_inj bs).mp hbody
      cases t with
      | nil =>
        rw [List.append_nil] at ht
        rw [← ht] at hgt
        exact hfree hgt
      | cons t0 ts =>
        rw [List.cons_prefix_cons] at ht2
        apply hlt
        rw [← ht, ht2.1]
        simp

theorem readLists_cons (depth : Nat) (c : Char) (cs : List Char) :
    readLists depth (c :: cs) =
      if ulOpenTag <+: c :: cs then readLists (depth + 1) cs
      else if ulCloseTag <+: c :: cs then
        match depth with
        | 0 => none
        | d + 1 => readLists d cs
      else if liOpenTag <+: c :: cs then
        (readLists depth cs).map
          (fun r => ((depth, upTo liCloseTag (cs.drop 3)) :: r.1, r.2))
      else readLists depth cs := by
  rw [readLists.eq_def]

theorem readLists_skip (block after : List Char) (depth : Nat)
    (h : Inert [ulOpenTag, ulCloseTag, liOpenTag] block after) :
    readLists depth (block ++ after) = readLists depth after := by
  induction block with
  | nil => rfl
  | cons c cs ih =>
    have h1 := h ulOpenTag (by simp) [] (c :: cs) rfl (by simp)
    have h2 := h ulCloseTag (by simp) [] (c :: cs) rfl (by simp)
    have h3 := h liOpenTag (by simp) [] (c :: cs) rfl (by simp)
    rw [List.cons_append] at h1 h2 h3 ⊢
    rw [readLists_cons, if_neg h1, if_neg h2, if_neg h3]
    apply ih
    intro p hp a b hab hb
    exact h p hp (c :: a) b (by rw [hab]; rfl) hb

theorem upTo_block (block rest : List Char)
    (h : Inert [liCloseTag] block (liCloseTag ++ rest)) :
    upTo liCloseTag (block ++ (liCloseTag ++ rest)) = block := by
  induction block with
  | nil => simp [upTo, liCloseTag]
  | cons c cs ih =>
    have h1 := h liCloseTag (by simp) [] (c :: cs) rfl (by simp)
    rw [List.cons_append] at h1 ⊢
    rw [upTo, if_neg h1, ih]
    intro p hp a b hab hb
    exact h p hp (c :: a) b (by rw [hab]; rfl) hb

theorem listTags_patterns : ∀ p ∈ [ulOpenTag, ulCloseTag, liOpenTag], IsTagPattern p := by
  intro p hp
  simp only [List.mem_cons, List.mem_singleton, List.not_mem_nil, or_false] at hp
  rcases hp with rfl | rfl | rfl
  · exact ⟨['u', 'l', '>'], rfl, by decide, by decide⟩
  · exact ⟨['/', 'u', 'l', '>'], rfl, by decide, by decide⟩
  · exact ⟨['l', 'i', '>'], rfl, by decide, by decide⟩

theorem liClose_pattern : ∀ p ∈ [liCloseTag], IsTagPattern p := by
  intro p hp
  simp only [List.mem_singleton] at hp
  subst hp
  exact ⟨['/', 'l', 'i', '>'], rfl, by decide, by decide⟩

/-- The link of a clean entry is inert for tag patterns that its literal
pieces refute, when a `<` follows it. -/
theorem inert_tocLink (patterns : List (List Char)) (e : TocEntry) (more : List Char)
    (hpat : ∀ p ∈ patterns, IsTagPattern p) (he : EntryClean e)
    (h1 : ∀ p ∈ patterns, inertText p "<a href=\"#".toList = true)
    (h2 : ∀ p ∈ patterns, inertText p "</a>".toList = true) :
    Inert patterns (tocLink e) ('<' :: more) := by
  have hq1 : ∀ c ∈ "\" onclick=\"scrollToSection('".toList, c ≠ '<' := by decide
  have hq2 : ∀ c ∈ "'); return false;\">".toList, c ≠ '<' := by decide
  unfold tocLink
  repeat rw [List.append_assoc]
  refine inert_append _ _ _ _ (inert_of_inertText _ _ _ h1) ?_
  refine inert_append _ _ _ _ (inert_of_no_lt _ _ _ hpat he.2) ?_
  refine inert_append _ _ _ _ (inert_of_no_lt _ _ _ hpat hq1) ?_
  refine inert_append _ _ _ _ (inert_of_no_lt _ _ _ hpat he.2) ?_
  refine inert_append _ _ _ _ (inert_of_no_lt _ _ _ hpat hq2) ?_
  refine inert_append _ _ _ _ (inert_of_tagFree _ _ _ hpat he.1) ?_
  exact inert_of_inertText _ _ _ h2

theorem readLists_ulOpen (depth : Nat) (rest : List Char) :
    readLists depth (ulOpenTag ++ rest) = readLists (depth + 1) rest := by
  have hp : ulOpenTag <+: '<' :: (['u', 'l', '>'] ++ rest) := List.prefix_append ulOpenTag rest
  rw [show ulOpenTag ++ rest = '<' :: (['u', 'l', '>'] ++ rest) from rfl, readLists_cons,
    if_pos hp]
  exact readLists_skip _ _ _ (inert_of_inertText _ _ _ (by decide))

theorem readLists_ulClose (depth : Nat) (rest : List Char) :
    readLists depth (ulCloseTag ++ rest) =
      match depth with
      | 0 => none
      | d + 1 => readLists d rest := by
  have hn : ¬ ulOpenTag <+: '<' :: (['/', 'u', 'l', '>'] ++ rest) :=
    refutes_sound ulOpenTag ulCloseTag rest (by decide)
  have hp : ulCloseTag <+: '<' :: (['/', 'u', 'l', '>'] ++ rest) :=
    List.prefix_append ulCloseTag rest
  rw [show ulCloseTag ++ rest = '<' :: (['/', 'u', 'l', '>'] ++ rest) from rfl, readLists_cons,
    if_neg hn, if_pos hp]
  cases depth with
  | zero => rfl
  | succ d => exact readLists_skip _ _ _ (inert_of_inertText _ _ _ (by decide))

theorem tocItem_eq (e : TocEntry) : tocItem e = liOpenTag ++ (tocLink e ++ liCloseTag) := by
  simp only [tocItem, tocLink, List.append_assoc]
  rfl

/-- Reading the list item of a clean entry notes its depth and its link and
leaves the depth as it is. -/
theorem readLists_item (depth : Nat) (e : TocEntry) (rest : List Char) (he : EntryClean e) :
    readLists depth (tocItem e ++ rest) =
      (readLists depth rest).map (fun r => ((depth, tocLink e) :: r.1, r.2)) := by
  have hn1 : ¬ ulOpenTag <+: '<' :: (['l', 'i', '>'] ++ (tocLink e ++ (liCloseTag ++ rest))) :=
    refutes_sound ulOpenTag liOpenTag _ (by decide)
  have hn2 : ¬ ulCloseTag <+: '<' :: (['l', 'i', '>'] ++ (tocLink e ++ (liCloseTag ++ rest))) :=
    refutes_sound ulCloseTag liOpenTag _ (by decide)
  have hp : liOpenTag <+: '<' :: (['l', 'i', '>'] ++ (tocLink e ++ (liCloseTag ++ rest))) :=
    List.prefix_append liOpenTag _
  have hup : upTo liCloseTag (tocLink e ++ (liCloseTag ++ rest)) = tocLink e :=
    upTo_block _ _ (inert_tocLink _ e _ liClose_pattern he (by decide) (by decide))
  have hskip : readLists depth (['l', 'i', '>'] ++ (tocLink e ++ (liCloseTag ++ rest)))
      = readLists depth rest := by
    have e1 : ['l', 'i', '>'] ++ (tocLink e ++ (liCloseTag ++ rest))
        = (['l', 'i', '>'] ++ (tocLink e ++ liCloseTag)) ++ rest := by
      simp only [List.append_assoc]
    rw [e1]
    apply readLists_skip
    refine inert_append _ _ _ _ (inert_of_inertText _ _ _ (by decide)) ?_
    refine inert_append _ _ _ _ ?_ (inert_of_inertText _ _ _ (by decide))
    exact inert_tocLink _ e _ listTags_patterns he (by decide) (by decide)
  rw [tocItem_eq, List.append_assoc, List.append_assoc,
    show liOpenTag ++ (tocLink e ++ (liCloseTag ++ rest))
      = '<' :: (['l', 'i', '>'] ++ (tocLink e ++ (liCloseTag ++ rest))) from rfl,
    readLists_cons, if_neg hn1, if_neg hn2, if_pos hp, hskip]
  rw [show List.drop 3 (['l', 'i', '>'] ++ (tocLink e ++ (liCloseTag ++ rest)))
    = tocLink e ++ (liCloseTag ++ rest) from rfl, hup]

/-- Reading the text of a tag sequence whose entries are clean gives what
`liDepths` reads off the sequence, with every entry shown by its link. -/
theorem readLists_tags (tags : List TocTag) (tail : List Char) (depth : Nat)
    (hclean : ∀ e, TocTag.li e ∈ tags → EntryClean e)
    (htail : ∀ k, readLists k tail = some ([], k)) :
    readLists depth ((tags.map TocTag.render).flatten ++ tail) =
      (liDepths depth tags).map (fun r => (r.1.map (fun q => (q.1, tocLink q.2)), r.2)) := by
  induction tags generalizing depth with
  | nil => simp [liDepths, htail]
  | cons t ts ih =>
    have hts : ∀ e, TocTag.li e ∈ ts → EntryClean e :=
      fun e he => hclean e (List.mem_cons_of_mem _ he)
    simp only [List.map_cons, List.flatten_cons, List.append_assoc]
    cases t with
    | ulOpen =>
      rw [show TocTag.ulOpen.render = ulOpenTag from rfl, readLists_ulOpen, ih _ hts]
      simp only [liDepths]
    | ulClose =>
      rw [show TocTag.ulClose.render = ulCloseTag from rfl, readLists_ulClose]
      cases depth with
      | zero => simp only [liDepths, Option.map_none']
      | succ d =>
        simp only
        rw [ih _ hts]
        simp only [liDepths]
    | li e =>
      rw [show (TocTag.li e).render = tocItem e from rfl,
        readLists_item _ _ _ (hclean e (List.mem_cons_self _ _)), ih _ hts]
      simp only [liDepths, Option.map_map]
      congr 1

theorem mem_tocTags (tocData : List TocEntry) (currentLevel : Nat) (e : TocEntry)
    (h : TocTag.li e ∈ tocTags currentLevel tocData) : e ∈ tocData := by
  induction tocData generalizing currentLevel with
  | nil => simp [tocTags] at h
  | cons item rest ih =>
    simp only [tocTags, List.mem_append, List.mem_cons] at h
    rcases h with h | h | h
    · split_ifs at h <;> simp at h
    · simp only [TocTag.li.injEq] at h
      simp [h]
    · exact List.mem_cons_of_mem _ (ih _ h)

/-- The text `generateTOC` emits for a non-empty `tocData`. -/
theorem generateTOC_text (tocData : List TocEntry) (hne : tocData ≠ []) :
    generateTOC tocData
      = tocHead ++ (((TocTag.ulOpen :: tocTags 1 tocData).map TocTag.render).flatten
          ++ "</div>".toList) := by
  have hlen : ¬ tocData.length = 0 := by
    simpa [List.length_eq_zero] using hne
  unfold generateTOC
  rw [if_neg hlen]
  simp only
  rw [tocStep_fold]
  simp only [List.map_cons, List.flatten_cons, List.append_assoc]
  rfl

/-- Reading the lists off the text `generateTOC` emits for clean entries. -/
theorem readLists_generateTOC (tocData : List TocEntry) (hne : tocData ≠ [])
    (hclean : ∀ e ∈ tocData, EntryClean e) :
    readLists 0 (generateTOC tocData)
      = some (tocData.map (fun e => (e.level, tocLink e)), 0) := by
  have htail : ∀ k, readLists k "</div>".toList = some ([], k) := by
    intro k
    have := readLists_skip "</div>".toList [] k (inert_of_inertText _ _ _ (by decide))
    rw [List.append_nil] at this
    rw [this]
    rfl
  rw [generateTOC_text tocData hne,
    readLists_skip tocHead _ 0 (inert_of_inertText _ _ _ (by decide)),
    readLists_tags _ _ _ ?_ htail]
  · rw [show liDepths 0 (TocTag.ulOpen :: tocTags 1 tocData) = liDepths 1 (tocTags 1 tocData)
      from rfl, liDepths_tocTags]
    simp [List.map_map, Function.comp]
  · intro e he
    rcases List.mem_cons.mp he with h | h
    · cases h
    · exact hclean e (mem_tocTags tocData 1 e h)

theorem tagRegex_other (pre : List Char) (c : Char) (cs : List Char) (h : c ≠ '<') :
    tagRegex pre (c :: cs) = none := by
  have : ¬ '<' = c := fun e => h e.symm
  simp [tagRegex, expect, List.isPrefixOf, this]

theorem tagRegex_lt (pre cs : List Char) :
    tagRegex pre ('<' :: cs) =
      if ['>'].isPrefixOf (cs.dropWhile (fun c => !(c == '>'))) then
        some ((cs.takeWhile (fun c => !(c == '>'))).length + 2, ()) else none := by
  simp only [tagRegex, expect, List.isPrefixOf, beq_self_eq_true, Bool.and_self, if_true,
    List.length_singleton, List.drop_succ_cons, List.drop_zero, drop_takeWhile_length]

theorem not_gt_mem_of_dropWhile (cs : List Char)
    (h : ['>'].isPrefixOf (cs.dropWhile (fun c => !(c == '>'))) = false) : '>' ∉ cs := by
  intro hin
  cases hd : cs.dropWhile (fun c => !(c == '>')) with
  | nil =>
    have := (List.dropWhile_eq_nil_iff.mp hd) '>' hin
    simp at this
  | cons d rest =>
    have hnot := dropWhile_head_not _ cs d rest hd
    have hdq : d = '>' := by simpa using hnot
    rw [hd, hdq] at h
    simp [List.isPrefixOf] at h

/-- The text left once the tags are removed holds characters of the subject
only, and no tag. -/
theorem tagStrip_spec (n : Nat) (s pre : List Char) (hn : s.length ≤ n) :
    (∀ x ∈ segText (fun _ => []) (scanFrom tagRegex pre 0 s), x ∈ s) ∧
      TagFree (segText (fun _ => []) (scanFrom tagRegex pre 0 s)) := by
  induction n generalizing s pre with
  | zero =>
    have : s = [] := List.length_eq_zero.mp (by omega)
    subst this
    refine ⟨by simp [scanFrom, segText], ?_⟩
    intro a b hab
    simp [scanFrom, segText] at hab
  | succ n ih =>
    cases s with
    | nil =>
      refine ⟨by simp [scanFrom, segText], ?_⟩
      intro a b hab
      simp [scanFrom, segText] at hab
    | cons c cs =>
      have hcs : cs.length ≤ n := by simpa using hn
      have hkeep : ∀ (hnone : tagRegex pre (c :: cs) = none) (hgt : c = '<' → '>' ∉ cs),
          (∀ x ∈ segText (fun _ => []) (scanFrom tagRegex pre 0 (c :: cs)), x ∈ c :: cs) ∧
            TagFree (segText (fun _ => []) (scanFrom tagRegex pre 0 (c :: cs))) := by
        intro hnone hgt
        obtain ⟨i1, i2⟩ := ih cs (pre ++ [c]) hcs
        simp only [scanFrom, hnone, segText_lit]
        refine ⟨?_, ?_⟩
        · intro x hx
          rcases List.mem_cons.mp hx with rfl | hx
          · simp
          · exact List.mem_cons_of_mem _ (i1 x hx)
        · intro a b hab
          cases a with
          | nil =>
            simp only [List.nil_append, List.cons.injEq] at hab
            obtain ⟨hc, hb⟩ := hab
            intro hin
            rw [← hb] at hin
            exact hgt hc (i1 _ hin)
          | cons a0 a1 =>
            simp only [List.cons_append, List.cons.injEq] at hab
            exact i2 a1 b hab.2
      by_cases hc : c = '<'
      · subst hc
        by_cases hm : ['>'].isPrefixOf (cs.dropWhile (fun c => !(c == '>'))) = true
        · have hreg := tagRegex_lt pre cs
          rw [if_pos hm] at hreg
          have hdl : (cs.drop ((cs.takeWhile (fun c => !(c == '>'))).length + 1)).length ≤ n := by
            simp
            omega
          obtain ⟨i1, i2⟩ := ih (cs.drop ((cs.takeWhile (fun c => !(c == '>'))).length + 1))
            (pre ++ ['<'] ++ cs.take ((cs.takeWhile (fun c => !(c == '>'))).length + 1)) hdl
          simp only [scanFrom, hreg, segText_hit, Nat.add_sub_cancel, List.nil_append]
          rw [show (cs.takeWhile (fun c => !(c == '>'))).length + 2 - 1
            = (cs.takeWhile (fun c => !(c == '>'))).length + 1 from rfl, scanFrom_skip]
          exact ⟨fun x hx => List.mem_cons_of_mem _ (List.mem_of_mem_drop (i1 x hx)), i2⟩
        · have hm2 : ['>'].isPrefixOf (cs.dropWhile (fun c => !(c == '>'))) = false :=
            Bool.eq_false_iff.mpr hm
          have hreg := tagRegex_lt pre cs
          rw [if_neg hm] at hreg
          exact hkeep hreg (fun _ => not_gt_mem_of_dropWhile cs hm2)
      · exact hkeep (tagRegex_other pre c cs hc) (fun e => absurd e hc)

/-- The clean text of a heading holds no tag. -/
theorem cleanText_tagFree (rawtext : List Char) : TagFree (cleanText rawtext) :=
  (tagStrip_spec _ _ [] (le_refl _)).2

/-- The anchor id holds no `<`. -/
theorem anchorId_no_lt (toLowerCase : List Char → List Char) (clean : List Char) :
    ∀ c ∈ anchorId toLowerCase clean, c ≠ '<' := by
  unfold anchorId
  generalize toLowerCase clean = t
  obtain ⟨h1, -, -⟩ := hyphenate_spec t.length t [] (le_refl _)
  obtain ⟨k1, -, -⟩ := trim_spec (jsReplace nonWordRegex (fun _ => ['-']) t)
  intro c hc
  rcases h1 c (k1.subset hc) with ⟨-, hw⟩ | rfl
  · intro e
    subst e
    exact absurd hw (by decide)
  · decide

/-- Every entry the heading rule records is clean. -/
theorem collectToc_clean (toLowerCase : List Char → List Char) (calls : List HeadingCall) :
    ∀ e ∈ collectToc toLowerCase calls, EntryClean e := by
  intro e he
  obtain ⟨h, -, rfl⟩ := List.mem_map.mp he
  exact ⟨cleanText_tagFree h.rawtext, anchorId_no_lt toLowerCase (cleanText h.rawtext)⟩

/-- C9: for the entries the heading rule records for a non-empty sequence of
headings with levels at least 1, the text `generateTOC` emits opens with the
wrapper and an outer `<ul>` and ends with `</div>`; reading its `<ul>`,
`</ul>` and `<li>` tags from depth 0 never closes a list that is not open,
ends at depth 0, and finds exactly one list item per entry, in document order,
holding the link of that entry, at the depth of its level, which is at least
1. -/
theorem generateTOC_nesting (toLowerCase : List Char → List Char) (calls : List HeadingCall)
    (hne : calls ≠ []) (hlev : ∀ h ∈ calls, 1 ≤ h.level) :
    tocHead ++ ulOpenTag <+: generateTOC (collectToc toLowerCase calls) ∧
      "</div>".toList <:+ generateTOC (collectToc toLowerCase calls) ∧
      readLists 0 (generateTOC (collectToc toLowerCase calls))
        = some ((collectToc toLowerCase calls).map (fun e => (e.level, tocLink e)), 0) ∧
      (collectToc toLowerCase calls).map (fun e => e.level) = calls.map (fun h => h.level) ∧
      ∀ e ∈ collectToc toLowerCase calls, 1 ≤ e.level := by
  have hne2 : collectToc toLowerCase calls ≠ [] := by
    simpa [collectToc] using hne
  refine ⟨?_, ?_, readLists_generateTOC _ hne2 (collectToc_clean toLowerCase calls), ?_, ?_⟩
  · rw [generateTOC_text _ hne2]
    refine ⟨(((tocTags 1 (collectToc toLowerCase calls)).map TocTag.render).flatten
      ++ "</div>".toList), ?_⟩
    simp only [List.map_cons, List.flatten_cons, List.append_assoc]
    rfl
  · rw [generateTOC_text _ hne2]
    exact ⟨tocHead ++ ((TocTag.ulOpen :: tocTags 1 (collectToc toLowerCase calls)).map
      TocTag.render).flatten, by simp only [List.append_assoc]⟩
  · simp [collectToc, heading]
  · intro e he
    obtain ⟨h, hh, rfl⟩ := List.mem_map.mp he
    exact hlev h hh

/-- C9 on the headings `# A`, `## B`, `# C`: the items of `A` and `C` sit at
depth 1 and the item of `B` one level deeper, between them. -/
theorem generateTOC_nesting_witness :
    readLists 0 (generateTOC (collectToc asciiLowerCase headingsABC))
      = some ([(1, tocLink ⟨1, ['A'], ['a']⟩), (2, tocLink ⟨2, ['B'], ['b']⟩),
          (1, tocLink ⟨1, ['C'], ['c']⟩)], 0) ∧
      generateTOC (collectToc asciiLowerCase headingsABC)
        = tocHead ++ ("<ul>".toList ++ tocItem ⟨1, ['A'], ['a']⟩ ++
            ("<ul>".toList ++ tocItem ⟨2, ['B'], ['b']⟩ ++ "</ul>".toList) ++
            tocItem ⟨1, ['C'], ['c']⟩ ++ "</ul>".toList) ++ "</div>".toList :=
  ⟨(generateTOC_nesting asciiLowerCase headingsABC (by decide) (by decide)).2.2.1, by rfl⟩

end MarkdownEditor
